import Mathlib

/-!
Verification development for the rule-set compiler (`main.go` / the ListInfo
rule compiler).  Go strings are modelled as Lean `String`s; the handful of
`strings.*` standard-library functions the source uses are re-implemented
over `List Char` (ASCII semantics, which is all the rule grammar exercises)
and wrapped back into `String`.  Go maps are modelled as association lists:
a deterministic stand-in for Go's unspecified map iteration order.
-/

namespace RuleSet

/-! ## Character and string primitives (models of Go `strings` functions) -/

/-- Model of the whitespace class used by `strings.TrimSpace` (ASCII part). -/
def goIsSpace (c : Char) : Bool :=
  c = ' ' || c = '\t' || c = '\n' || c = '\x0b' || c = '\x0c' || c = '\r'

/-- Trim leading and trailing whitespace from a character list. -/
def trimL (l : List Char) : List Char :=
  ((l.dropWhile goIsSpace).reverse.dropWhile goIsSpace).reverse

/-- Model of `strings.TrimSpace`. -/
def trimSpace (s : String) : String := String.mk (trimL s.data)

/-- Split a character list on a separator character; total, never returns `[]`
(mirrors `strings.Split` with a one-character separator). -/
def splitOnCharL (sep : Char) : List Char → List (List Char)
  | [] => [[]]
  | c :: cs =>
    if c = sep then [] :: splitOnCharL sep cs
    else
      match splitOnCharL sep cs with
      | [] => [[c]]
      | p :: ps => (c :: p) :: ps

/-- Model of `strings.Split` with a one-character separator. -/
def splitOnC (sep : Char) (s : String) : List String :=
  (splitOnCharL sep s.data).map String.mk

/-- ASCII lower-casing of one character (`strings.ToLower` restricted to ASCII). -/
def lowerChar (c : Char) : Char :=
  if 'A' ≤ c && c ≤ 'Z' then Char.ofNat (c.toNat + 32) else c

/-- ASCII upper-casing of one character (`strings.ToUpper` restricted to ASCII). -/
def upperChar (c : Char) : Char :=
  if 'a' ≤ c && c ≤ 'z' then Char.ofNat (c.toNat - 32) else c

/-- Model of `strings.ToLower` (ASCII). -/
def toLowerS (s : String) : String := String.mk (s.data.map lowerChar)

/-- Model of `strings.ToUpper` (ASCII). -/
def toUpperS (s : String) : String := String.mk (s.data.map upperChar)

/-- Does `s` start with `p`? (first argument the string, second the pattern). -/
def startsWithL : List Char → List Char → Bool
  | _, [] => true
  | [], _ :: _ => false
  | c :: s, p :: ps => c = p && startsWithL s ps

/-- Model of `strings.HasPrefix`. -/
def hasPrefixS (s p : String) : Bool := startsWithL s.data p.data

/-- Occurrence of `pat` as a contiguous substring of the second argument. -/
def containsL (pat : List Char) : List Char → Bool
  | [] => startsWithL [] pat
  | c :: s => startsWithL (c :: s) pat || containsL pat s

/-- Model of `strings.Contains s sub`. -/
def containsS (s sub : String) : Bool := containsL sub.data s.data

/-- Model of `strings.TrimPrefix`. -/
def trimPrefixS (s p : String) : String :=
  if hasPrefixS s p then String.mk (s.data.drop p.data.length) else s

/-! ## Data model (`router.Domain`, `ListInfo`, `router.GeoSite`) -/

/-- `router.Domain_Type`: `Plain` = keyword, `Regex` = regexp,
`RootDomain` = domain suffix, `Full` = full domain.  `Plain` is the zero
value of the Go enum. -/
inductive DomainType
  | Plain
  | Regex
  | RootDomain
  | Full
deriving DecidableEq, Inhabited

/-- `router.Domain`: a single rule.  `Attribute` holds the attribute keys in
order of appearance (each Go `Domain_Attribute` carries a key and the
constant `BoolValue true`, so the key list captures the whole record). -/
structure Domain where
  typ : DomainType
  Value : String
  Attribute : List String
deriving DecidableEq, Inhabited

/-- Association-list lookup, the model of reading a Go map. -/
def lookupA {α : Type} : List (String × α) → String → Option α
  | [], _ => none
  | (k, v) :: rest, key => if k = key then some v else lookupA rest key

/-- Append `vs` to the entry at key `k` of an association list of lists,
creating the entry if absent (the model of `m[k] = append(m[k], vs...)`). -/
def mapAppend {α : Type} : List (String × List α) → String → List α → List (String × List α)
  | [], k, vs => [(k, vs)]
  | (k0, v0) :: rest, k, vs =>
    if k0 = k then (k0, v0 ++ vs) :: rest else (k0, v0) :: mapAppend rest k vs

/-- `ListInfo`: the per-file rule collection of the source. -/
structure ListInfo where
  Name : String
  HasInclusion : Bool
  InclusionAttributeMap : List (String × List String)
  FullTypeList : List Domain
  KeywordTypeList : List Domain
  RegexpTypeList : List Domain
  AttributeRuleUniqueList : List Domain
  DomainTypeList : List Domain
  DomainTypeUniqueList : List Domain
  AttributeRuleListMap : List (String × List Domain)
deriving DecidableEq, Inhabited

/-- `NewListInfo`: the empty collection. -/
def NewListInfo (name : String) : ListInfo :=
  { Name := name
    HasInclusion := false
    InclusionAttributeMap := []
    FullTypeList := []
    KeywordTypeList := []
    RegexpTypeList := []
    AttributeRuleUniqueList := []
    DomainTypeList := []
    DomainTypeUniqueList := []
    AttributeRuleListMap := [] }

/-- `router.GeoSite` as produced by `ToGeoSite`. -/
structure GeoSite where
  CountryCode : String
  Domain : List Domain
deriving DecidableEq

/-- The registry of parsed files (`ListInfoMap`). -/
def ListInfoMap := List (String × ListInfo)

/-! ## Rule parser (`parseInclusion`, `parseTypeRule`, `parseAttribute`, `parseRule`) -/

/-- The parse errors `parseRule` and its helpers can raise, one constructor
per `errors.New` site in the source. -/
inductive ParseErr
  | emptyLine
  | emptyRule
  | unknownType (ruleType : String)
  | invalidAttr (attr : String)
deriving DecidableEq

/-- `parseInclusion`: record an `include:` line into `InclusionAttributeMap`.
An inclusion without attributes stores the placeholder attribute `"@"`;
one with attributes stores `"@" ++ attr` for each non-empty trimmed,
lower-cased attribute segment. -/
def parseInclusion (l : ListInfo) (inclusion : String) : ListInfo :=
  let inclusionVal := trimPrefixS (trimSpace inclusion) "include:"
  let slices := splitOnC '@' inclusionVal
  let filename := toUpperS (trimSpace (slices.headD ""))
  match slices with
  | [_] =>
    { l with HasInclusion := true
             InclusionAttributeMap := mapAppend l.InclusionAttributeMap filename ["@"] }
  | _ :: rest =>
    { l with HasInclusion := true
             InclusionAttributeMap :=
               rest.foldl
                 (fun m a =>
                   let a' := toLowerS (trimSpace a)
                   if a' ≠ "" then mapAppend m filename ["@" ++ a'] else m)
                 l.InclusionAttributeMap }
  | [] => l

/-- `parseTypeRule`: split the rule token on `:` and fill in kind and value.
The Go switch only handles one or two segments; with three or more segments
neither case fires, so the zero-valued rule (`Plain`, empty value) is
returned with no error. -/
def parseTypeRule (domain : String) : Except ParseErr (DomainType × String) :=
  match splitOnC ':' domain with
  | [v] => Except.ok (DomainType.RootDomain, toLowerS (trimSpace v))
  | [t0, v0] =>
    let ruleType := trimSpace t0
    let ruleVal := trimSpace v0
    let rt := toLowerS ruleType
    if rt = "full" then Except.ok (DomainType.Full, toLowerS ruleVal)
    else if rt = "domain" then Except.ok (DomainType.RootDomain, toLowerS ruleVal)
    else if rt = "keyword" then Except.ok (DomainType.Plain, toLowerS ruleVal)
    else if rt = "regexp" then Except.ok (DomainType.Regex, ruleVal)
    else Except.error (ParseErr.unknownType ruleType)
  | _ => Except.ok (DomainType.Plain, "")

/-- `parseAttribute`: an attribute token must start with `@` (Go tests
`attr[0] != '@'`); the remainder, lower-cased, is the key. -/
def parseAttribute (attr : String) : Except ParseErr String :=
  match attr.data with
  | c :: rest =>
    if c = '@' then Except.ok (toLowerS (String.mk rest))
    else Except.error (ParseErr.invalidAttr attr)
  | [] => Except.error (ParseErr.invalidAttr attr)

/-- The attribute-token loop of `parseRule`: trim each token, skip empty
ones, parse the rest, collecting the keys in order. -/
def parseAttrs : List String → Except ParseErr (List String)
  | [] => Except.ok []
  | a :: rest =>
    let a' := trimSpace a
    if a' = "" then parseAttrs rest
    else
      match parseAttribute a' with
      | Except.error e => Except.error e
      | Except.ok key =>
        match parseAttrs rest with
        | Except.error e => Except.error e
        | Except.ok keys => Except.ok (key :: keys)

/-- `parseRule`: parse one non-comment line.  Returns the (possibly updated)
`ListInfo` and the parsed rule, `none` for an `include:` line. -/
def parseRule (l : ListInfo) (line0 : String) : Except ParseErr (ListInfo × Option Domain) :=
  let line := trimSpace line0
  if line = "" then Except.error ParseErr.emptyLine
  else if hasPrefixS line "include:" then Except.ok (parseInclusion l line, none)
  else
    let parts := splitOnC ' ' line
    let ruleWithType := trimSpace (parts.headD "")
    if ruleWithType = "" then Except.error ParseErr.emptyRule
    else
      match parseTypeRule ruleWithType with
      | Except.error e => Except.error e
      | Except.ok (t, v) =>
        match parseAttrs (parts.drop 1) with
        | Except.error e => Except.error e
        | Except.ok attrs => Except.ok (l, some ⟨t, v, attrs⟩)

/-- The concatenated attribute key built by `classifyRule`
(`"@cn@ads"` for attributes `cn`, `ads`). -/
def attrsString (ts : List String) : String :=
  ts.foldl (fun s t => s ++ "@" ++ t) ""

/-- `classifyRule`: a tagged rule goes to `AttributeRuleUniqueList` and the
group keyed by its concatenated attribute string; an untagged rule goes to
the list of its kind. -/
def classifyRule (l : ListInfo) (rule : Domain) : ListInfo :=
  if rule.Attribute.length > 0 then
    { l with
      AttributeRuleUniqueList := l.AttributeRuleUniqueList ++ [rule]
      AttributeRuleListMap :=
        mapAppend l.AttributeRuleListMap (attrsString rule.Attribute) [rule] }
  else
    match rule.typ with
    | DomainType.Full => { l with FullTypeList := l.FullTypeList ++ [rule] }
    | DomainType.RootDomain => { l with DomainTypeList := l.DomainTypeList ++ [rule] }
    | DomainType.Plain => { l with KeywordTypeList := l.KeywordTypeList ++ [rule] }
    | DomainType.Regex => { l with RegexpTypeList := l.RegexpTypeList ++ [rule] }

/-! ## Flatten (`ListInfo.Flatten`) -/

/-- The filtered-inclusion loop of `Flatten` (the `default` branch): walk the
included file's `AttributeRuleListMap`; a group whose key `attr` satisfies
`strings.Contains(attr+"@", attrWanted+"@")` is appended to the including
file's map under the group's own key and to `AttributeRuleUniqueList`. -/
def includeFiltered (aw : String) : ListInfo → List (String × List Domain) → ListInfo
  | acc, [] => acc
  | acc, (attr, domainList) :: rest =>
    if containsS (attr ++ "@") (aw ++ "@") then
      includeFiltered aw
        { acc with
          AttributeRuleListMap := mapAppend acc.AttributeRuleListMap attr domainList
          AttributeRuleUniqueList := acc.AttributeRuleUniqueList ++ domainList }
        rest
    else includeFiltered aw acc rest

/-- The unfiltered-inclusion merge of `Flatten` (the `"@"` branch): append all
four untagged lists, the tagged-rule list, and merge the tagged-rule map. -/
def includeAll (acc inc : ListInfo) : ListInfo :=
  { acc with
    FullTypeList := acc.FullTypeList ++ inc.FullTypeList
    DomainTypeList := acc.DomainTypeList ++ inc.DomainTypeList
    KeywordTypeList := acc.KeywordTypeList ++ inc.KeywordTypeList
    RegexpTypeList := acc.RegexpTypeList ++ inc.RegexpTypeList
    AttributeRuleUniqueList := acc.AttributeRuleUniqueList ++ inc.AttributeRuleUniqueList
    AttributeRuleListMap :=
      inc.AttributeRuleListMap.foldl (fun m kv => mapAppend m kv.1 kv.2) acc.AttributeRuleListMap }

/-- One wanted attribute of one inclusion directive. -/
def includeOne (acc inc : ListInfo) (attrWanted : String) : ListInfo :=
  if attrWanted = "@" then includeAll acc inc
  else includeFiltered attrWanted acc inc.AttributeRuleListMap

/-- Process one entry of `InclusionAttributeMap`.  A target missing from the
registry is `none` (in Go this dereferences a nil map entry and crashes;
the specification's resolver reports it as an unresolvable-target error). -/
def flattenEntry (lm : ListInfoMap) (l : ListInfo) (entry : String × List String) :
    Option ListInfo :=
  match lookupA lm entry.1 with
  | none => none
  | some inc => some (entry.2.foldl (fun acc a => includeOne acc inc a) l)

/-- Process all entries of `InclusionAttributeMap` in order. -/
def flattenEntries (lm : ListInfoMap) : ListInfo → List (String × List String) → Option ListInfo
  | l, [] => some l
  | l, e :: es =>
    match flattenEntry lm l e with
    | none => none
    | some l1 => flattenEntries lm l1 es

/-- The inclusion-merging phase of `Flatten` (everything before the sort and
the trie walk). -/
def flattenIncludes (lm : ListInfoMap) (l : ListInfo) : Option ListInfo :=
  if l.HasInclusion then flattenEntries lm l l.InclusionAttributeMap else some l

/-- Number of dot-separated labels of a domain value, the sort key of
`Flatten` (`len(strings.Split(value, "."))`). -/
def labelCount (s : String) : Nat := (splitOnC '.' s).length

/-- Insert into a list sorted by ascending label count. -/
def insertSorted (a : Domain) : List Domain → List Domain
  | [] => [a]
  | b :: bs =>
    if labelCount a.Value ≤ labelCount b.Value then a :: b :: bs
    else b :: insertSorted a bs

/-- The sort of `Flatten`: `sort.Slice` by ascending label count, modelled by
insertion sort (the Go sort is unstable; any permutation sorted by the same
key is a faithful model, and the properties proved below depend only on
sortedness). -/
def sortByLabelCount (l : List Domain) : List Domain := l.foldr insertSorted []

/-- `v` is a dot-suffix of `w` (label-wise): the reversed label list of `v`
is a prefix of the reversed label list of `w`.  `dotSuffixB v v = true`. -/
def dotSuffixB (v w : String) : Bool :=
  List.isPrefixOf ((splitOnC '.' v).reverse) ((splitOnC '.' w).reverse)

/-- Modelled from the spec: the Domain Trie implementation
(`NewDomainTrie` / `Insert`) is not part of the sources provided; §4.2 of
the specification fixes its contract — `insert(value)` returns `false`
exactly when some already-accepted value equals `value` or is a dot-suffix
of it, and `true` otherwise, with the value then accepted.  The trie is
therefore modelled extensionally by the list of accepted values: the walk
over the sorted candidates keeps a candidate iff no accepted value is a
dot-suffix of it (terminal-node pruning inside the trie does not change
this accept/reject behaviour, only the tree's size). -/
def trieFold : List String → List Domain → List Domain
  | _, [] => []
  | acc, d :: ds =>
    if acc.any (fun v => dotSuffixB v d.Value) then trieFold acc ds
    else d :: trieFold (acc ++ [d.Value]) ds

/-- `Flatten`: merge inclusions, sort `DomainTypeList` in place by ascending
label count, then walk the trie and collect the accepted domains into
`DomainTypeUniqueList`. -/
def flatten (lm : ListInfoMap) (l : ListInfo) : Option ListInfo :=
  match flattenIncludes lm l with
  | none => none
  | some l1 =>
    let sorted := sortByLabelCount l1.DomainTypeList
    some { l1 with
           DomainTypeList := sorted
           DomainTypeUniqueList := l1.DomainTypeUniqueList ++ trieFold [] sorted }

/-! ## Rule-set assembly (`ListInfo.ToGeoSite`) -/

/-- The tagged-rule collection loop of `ToGeoSite`, run once for kind `Full`
and once for kind `RootDomain`: keep a rule of the requested kind unless an
exclusion set is configured for this file and one of the rule's attribute
keys is in it. -/
def collectTagged (excludeAttrs : List (String × List String)) (name : String)
    (t : DomainType) : List Domain → List Domain
  | [] => []
  | d :: ds =>
    if d.typ = t then
      match lookupA excludeAttrs name with
      | some m =>
        if d.Attribute.any (fun a => m.contains a) then
          collectTagged excludeAttrs name t ds
        else d :: collectTagged excludeAttrs name t ds
      | none => d :: collectTagged excludeAttrs name t ds
    else collectTagged excludeAttrs name t ds

/-- `ToGeoSite`: untagged Full rules, surviving tagged Full rules, the
deduplicated untagged suffix rules, then surviving tagged suffix rules. -/
def toGeoSite (excludeAttrs : List (String × List String)) (l : ListInfo) : GeoSite :=
  { CountryCode := l.Name
    Domain :=
      l.FullTypeList
        ++ collectTagged excludeAttrs l.Name DomainType.Full l.AttributeRuleUniqueList
        ++ l.DomainTypeUniqueList
        ++ collectTagged excludeAttrs l.Name DomainType.RootDomain l.AttributeRuleUniqueList }

/-! ## Claim-side vocabulary -/

/-- The exclusion tag set configured for a file (empty when none is). -/
def exclusionSet (excludeAttrs : List (String × List String)) (name : String) : List String :=
  (lookupA excludeAttrs name).getD []

/-- The exclusion test as the specification words it: a rule is dropped iff
the file's exclusion set is non-empty and intersects the rule's tag set. -/
def survivesExclusion (excludeAttrs : List (String × List String)) (name : String)
    (d : Domain) : Bool :=
  !(!(exclusionSet excludeAttrs name).isEmpty
      && d.Attribute.any (fun a => (exclusionSet excludeAttrs name).contains a))

/-- `a` is a strict dot-suffix of `b`: a dot-suffix with strictly fewer
labels. -/
def strictDotSuffixB (a b : String) : Bool :=
  dotSuffixB a b && decide (labelCount a < labelCount b)

/-! ## The assembler's collection loops as filters -/

theorem any_contains_nil (attrs : List String) :
    (attrs.any fun a => ([] : List String).contains a) = false := by
  induction attrs with
  | nil => rfl
  | cons a rest ih => simp [List.any, ih]

theorem collectTagged_cons (ex : List (String × List String)) (name : String)
    (t : DomainType) (d : Domain) (rest : List Domain) :
    collectTagged ex name t (d :: rest) =
      if (decide (d.typ = t) && survivesExclusion ex name d) = true
      then d :: collectTagged ex name t rest
      else collectTagged ex name t rest := by
  by_cases hdt : d.typ = t
  · cases hm : lookupA ex name with
    | none =>
      have hs : survivesExclusion ex name d = true := by
        simp [survivesExclusion, exclusionSet, hm]
      simp [collectTagged, hm, hdt, hs]
    | some m =>
      cases m with
      | nil =>
        have hs : survivesExclusion ex name d = true := by
          simp [survivesExclusion, exclusionSet, hm, any_contains_nil]
        simp [collectTagged, hm, hdt, hs, any_contains_nil]
      | cons x xs =>
        cases hc : (d.Attribute.any fun a => ((x :: xs) : List String).contains a) with
        | true =>
          have hs : survivesExclusion ex name d = false := by
            simp only [survivesExclusion, exclusionSet, hm, Option.getD_some]
            rw [hc]
            simp
          simp only [collectTagged, hm, hdt, if_pos rfl, hc, hs]
          simp
        | false =>
          have hs : survivesExclusion ex name d = true := by
            simp only [survivesExclusion, exclusionSet, hm, Option.getD_some]
            rw [hc]
            simp
          simp only [collectTagged, hm, hdt, if_pos rfl, hc, hs]
          simp
  · have : (decide (d.typ = t) && survivesExclusion ex name d) = false := by
      simp [hdt]
    rw [this]
    cases hm : lookupA ex name with
    | none => simp [collectTagged, hm, hdt]
    | some m => simp [collectTagged, hm, hdt]

theorem collectTagged_eq_filter (ex : List (String × List String)) (name : String)
    (t : DomainType) (ds : List Domain) :
    collectTagged ex name t ds =
      ds.filter fun d => decide (d.typ = t) && survivesExclusion ex name d := by
  induction ds with
  | nil => rfl
  | cons d rest ih => rw [collectTagged_cons, List.filter_cons, ih]

/-- C5: The compiled rule set is the concatenation, in this order, of the
untagged Full rules, the tagged Full rules surviving exclusion, the
deduplicated untagged suffix rules, and the tagged suffix rules surviving
exclusion; each segment is a filter of the corresponding list, so it
preserves first-seen order. -/
theorem geosite_assembly_order (ex : List (String × List String)) (l : ListInfo) :
    (toGeoSite ex l).Domain =
      l.FullTypeList
        ++ (l.AttributeRuleUniqueList.filter fun d =>
              decide (d.typ = DomainType.Full) && survivesExclusion ex l.Name d)
        ++ l.DomainTypeUniqueList
        ++ (l.AttributeRuleUniqueList.filter fun d =>
              decide (d.typ = DomainType.RootDomain) && survivesExclusion ex l.Name d) := by
  simp [toGeoSite, collectTagged_eq_filter]

/-- Dropping decision as a proposition. -/
theorem survivesExclusion_iff (ex : List (String × List String)) (name : String)
    (d : Domain) :
    survivesExclusion ex name d = true ↔
      ¬(exclusionSet ex name ≠ [] ∧ ∃ a ∈ d.Attribute, a ∈ exclusionSet ex name) := by
  constructor
  · intro hs hbad
    obtain ⟨hne, a, ha, hmem⟩ := hbad
    have hE : (exclusionSet ex name).isEmpty = false := by
      cases hL : exclusionSet ex name with
      | nil => exact absurd hL hne
      | cons y ys => simp
    have hany : (d.Attribute.any fun a => (exclusionSet ex name).contains a) = true := by
      refine List.any_eq_true.mpr ⟨a, ha, ?_⟩
      simp [List.contains, List.elem_iff, hmem]
    simp [survivesExclusion, hE, hany] at hs
    exact hs a ha hmem
  · intro h
    unfold survivesExclusion
    cases hL : (exclusionSet ex name).isEmpty with
    | true => simp [hL]
    | false =>
      cases hany : (d.Attribute.any fun a => (exclusionSet ex name).contains a) with
      | false => simp [hL, hany]
      | true =>
        exfalso
        apply h
        refine ⟨?_, ?_⟩
        · intro hnil
          rw [hnil] at hL
          simp at hL
        · obtain ⟨a, ha, hc⟩ := List.any_eq_true.mp hany
          refine ⟨a, ha, ?_⟩
          simpa [List.contains, List.elem_iff] using hc

/-- C6: A tagged rule of the requested kind is dropped by assembly iff the
file's exclusion tag set is non-empty and intersects the rule's tag set;
and the untagged segments (`FullTypeList`, `DomainTypeUniqueList`) appear
in the output unchanged, exclusion touching only the tagged segments. -/
theorem exclusion_drops_iff (ex : List (String × List String)) (l : ListInfo)
    (d : Domain) (t : DomainType) (hd : d ∈ l.AttributeRuleUniqueList) (ht : d.typ = t) :
    (d ∈ collectTagged ex l.Name t l.AttributeRuleUniqueList ↔
      ¬(exclusionSet ex l.Name ≠ [] ∧ ∃ a ∈ d.Attribute, a ∈ exclusionSet ex l.Name))
    ∧ ∃ s1 s2, (toGeoSite ex l).Domain =
        l.FullTypeList ++ s1 ++ l.DomainTypeUniqueList ++ s2 := by
  constructor
  · rw [collectTagged_eq_filter, List.mem_filter]
    rw [← survivesExclusion_iff ex l.Name d]
    simp [hd, ht]
  · exact ⟨_, _, rfl⟩

/-- A file whose only rules are an untagged keyword rule, an untagged regexp
rule, and a tagged keyword rule. -/
def keywordOnlyFile : ListInfo :=
  { NewListInfo "K" with
    KeywordTypeList := [⟨DomainType.Plain, "foo", []⟩]
    RegexpTypeList := [⟨DomainType.Regex, "Bar", []⟩]
    AttributeRuleUniqueList := [⟨DomainType.Plain, "kw", ["cn"]⟩] }

/-- C7 counterexample: `ToGeoSite` hands exporters an empty rule list for a
file holding keyword and regexp rules — they are all dropped, not included
verbatim. -/
theorem keyword_regex_dropped_counterexample :
    (toGeoSite [] keywordOnlyFile).Domain = []
      ∧ keywordOnlyFile.KeywordTypeList ≠ []
      ∧ keywordOnlyFile.RegexpTypeList ≠ []
      ∧ (keywordOnlyFile.AttributeRuleUniqueList.filter
          fun d => decide (d.typ = DomainType.Plain)) ≠ [] := by
  refine ⟨rfl, ?_, ?_, ?_⟩ <;> decide

/-- C7 amended: `ToGeoSite` never emits a Keyword (`Plain`) or Regex rule:
the compiled rule set handed to exporters consists of Full and RootDomain
rules only, and every keyword and regexp rule — tagged or untagged — is
dropped from it. -/
theorem keyword_regex_never_emitted (ex : List (String × List String)) (l : ListInfo)
    (hF : ∀ d ∈ l.FullTypeList, d.typ = DomainType.Full)
    (hD : ∀ d ∈ l.DomainTypeUniqueList, d.typ = DomainType.RootDomain) :
    ∀ d ∈ (toGeoSite ex l).Domain,
      d.typ ≠ DomainType.Plain ∧ d.typ ≠ DomainType.Regex := by
  intro d hd
  rw [geosite_assembly_order] at hd
  simp only [List.mem_append] at hd
  rcases hd with ((hd | hd) | hd) | hd
  · rw [hF d hd]
    decide
  · rcases List.mem_filter.mp hd with ⟨-, hp⟩
    simp only [Bool.and_eq_true, decide_eq_true_eq] at hp
    rw [hp.1]
    decide
  · rw [hD d hd]
    decide
  · rcases List.mem_filter.mp hd with ⟨-, hp⟩
    simp only [Bool.and_eq_true, decide_eq_true_eq] at hp
    rw [hp.1]
    decide

/-- Witness for `keyword_regex_never_emitted`. -/
theorem keyword_regex_never_emitted_witness :
    (⟨DomainType.Full, "f.x", []⟩ : Domain).typ ≠ DomainType.Plain
    ∧ (⟨DomainType.Full, "f.x", []⟩ : Domain).typ ≠ DomainType.Regex :=
  keyword_regex_never_emitted []
    { NewListInfo "A" with
      FullTypeList := [⟨DomainType.Full, "f.x", []⟩]
      DomainTypeUniqueList := [⟨DomainType.RootDomain, "d.x", []⟩] }
    (by decide) (by decide) ⟨DomainType.Full, "f.x", []⟩ (by decide)

/-- Witness for `exclusion_drops_iff`. -/
theorem exclusion_drops_iff_witness :
    let d : Domain := ⟨DomainType.Full, "h.t", ["cn", "ads"]⟩
    let l : ListInfo := { NewListInfo "A" with AttributeRuleUniqueList := [d] }
    let ex : List (String × List String) := [("A", ["ads"])]
    (d ∈ collectTagged ex l.Name DomainType.Full l.AttributeRuleUniqueList ↔
      ¬(exclusionSet ex l.Name ≠ [] ∧ ∃ a ∈ d.Attribute, a ∈ exclusionSet ex l.Name))
    ∧ ∃ s1 s2, (toGeoSite ex l).Domain =
        l.FullTypeList ++ s1 ++ l.DomainTypeUniqueList ++ s2 :=
  exclusion_drops_iff [("A", ["ads"])]
    { NewListInfo "A" with AttributeRuleUniqueList := [⟨DomainType.Full, "h.t", ["cn", "ads"]⟩] }
    ⟨DomainType.Full, "h.t", ["cn", "ads"]⟩ DomainType.Full (by decide) (by decide)

/-! ## Unfiltered inclusion (C8) and in-place flattening (C9) -/

/-- C8: An inclusion directive without a filter copies the target's four
untagged lists (Full, Suffix, Keyword, Regex) and all of its tagged rules —
the records themselves, hence with their original tag sets — into the
including file's collection, merging the tagged-rule groups key by key. -/
theorem unfiltered_include_copies_all (lm : ListInfoMap) (l inc : ListInfo) (X : String)
    (hInc : l.HasInclusion = true)
    (hMap : l.InclusionAttributeMap = [(X, ["@"])])
    (hX : lookupA lm X = some inc) :
    ∃ l', flattenIncludes lm l = some l'
      ∧ l'.FullTypeList = l.FullTypeList ++ inc.FullTypeList
      ∧ l'.DomainTypeList = l.DomainTypeList ++ inc.DomainTypeList
      ∧ l'.KeywordTypeList = l.KeywordTypeList ++ inc.KeywordTypeList
      ∧ l'.RegexpTypeList = l.RegexpTypeList ++ inc.RegexpTypeList
      ∧ l'.AttributeRuleUniqueList = l.AttributeRuleUniqueList ++ inc.AttributeRuleUniqueList
      ∧ l'.AttributeRuleListMap =
          inc.AttributeRuleListMap.foldl (fun m kv => mapAppend m kv.1 kv.2)
            l.AttributeRuleListMap
      ∧ ∀ d ∈ inc.AttributeRuleUniqueList, d ∈ l'.AttributeRuleUniqueList := by
  refine ⟨includeAll l inc, ?_, rfl, rfl, rfl, rfl, rfl, rfl, ?_⟩
  · rw [flattenIncludes, if_pos hInc, hMap]
    simp only [flattenEntries, flattenEntry, hX]
    rfl
  · intro d hd
    show d ∈ l.AttributeRuleUniqueList ++ inc.AttributeRuleUniqueList
    exact List.mem_append_right _ hd

/-- Witness for `unfiltered_include_copies_all`. -/
theorem unfiltered_include_copies_all_witness :
    ∃ l', flattenIncludes
        [("X", { NewListInfo "X" with FullTypeList := [⟨DomainType.Full, "f.x", []⟩] })]
        { NewListInfo "A" with
          HasInclusion := true
          InclusionAttributeMap := [("X", ["@"])] } = some l'
      ∧ l'.FullTypeList = ({ NewListInfo "A" with
            HasInclusion := true
            InclusionAttributeMap := [("X", ["@"])] } : ListInfo).FullTypeList
          ++ ({ NewListInfo "X" with
                FullTypeList := [⟨DomainType.Full, "f.x", []⟩] } : ListInfo).FullTypeList
      ∧ l'.DomainTypeList = [] ++ []
      ∧ l'.KeywordTypeList = [] ++ []
      ∧ l'.RegexpTypeList = [] ++ []
      ∧ l'.AttributeRuleUniqueList = [] ++ []
      ∧ l'.AttributeRuleListMap =
          List.foldl (fun m (kv : String × List Domain) => mapAppend m kv.1 kv.2) [] []
      ∧ ∀ d ∈ ([] : List Domain), d ∈ l'.AttributeRuleUniqueList :=
  unfiltered_include_copies_all
    [("X", { NewListInfo "X" with FullTypeList := [⟨DomainType.Full, "f.x", []⟩] })]
    { NewListInfo "A" with
      HasInclusion := true
      InclusionAttributeMap := [("X", ["@"])] }
    { NewListInfo "X" with FullTypeList := [⟨DomainType.Full, "f.x", []⟩] }
    "X" rfl rfl rfl

/-- The filtered-inclusion loop leaves every list except the tagged ones
unchanged and only appends to `AttributeRuleUniqueList`. -/
theorem includeFiltered_fields (aw : String) :
    ∀ (m : List (String × List Domain)) (acc : ListInfo),
      (includeFiltered aw acc m).FullTypeList = acc.FullTypeList
      ∧ (includeFiltered aw acc m).DomainTypeList = acc.DomainTypeList
      ∧ (includeFiltered aw acc m).KeywordTypeList = acc.KeywordTypeList
      ∧ (includeFiltered aw acc m).RegexpTypeList = acc.RegexpTypeList
      ∧ (includeFiltered aw acc m).DomainTypeUniqueList = acc.DomainTypeUniqueList
      ∧ ∃ add, (includeFiltered aw acc m).AttributeRuleUniqueList =
          acc.AttributeRuleUniqueList ++ add := by
  intro m
  induction m with
  | nil => exact fun acc => ⟨rfl, rfl, rfl, rfl, rfl, [], by simp [includeFiltered]⟩
  | cons kv rest ih =>
    intro acc
    rw [includeFiltered]
    by_cases hc : containsS (kv.1 ++ "@") (aw ++ "@") = true
    · rw [if_pos hc]
      obtain ⟨h1, h2, h3, h4, h5, add, h6⟩ := ih _
      refine ⟨h1, h2, h3, h4, h5, kv.2 ++ add, ?_⟩
      rw [h6]
      simp
    · rw [if_neg hc]
      exact ih acc

/-- `includeOne` extends the five rule lists in place and leaves
`DomainTypeUniqueList` alone. -/
theorem includeOne_fields (acc inc : ListInfo) (aw : String) :
    ∃ aF aD aK aR aA,
      (includeOne acc inc aw).FullTypeList = acc.FullTypeList ++ aF
      ∧ (includeOne acc inc aw).DomainTypeList = acc.DomainTypeList ++ aD
      ∧ (includeOne acc inc aw).KeywordTypeList = acc.KeywordTypeList ++ aK
      ∧ (includeOne acc inc aw).RegexpTypeList = acc.RegexpTypeList ++ aR
      ∧ (includeOne acc inc aw).AttributeRuleUniqueList = acc.AttributeRuleUniqueList ++ aA
      ∧ (includeOne acc inc aw).DomainTypeUniqueList = acc.DomainTypeUniqueList := by
  rw [includeOne]
  by_cases h : aw = "@"
  · rw [if_pos h]
    exact ⟨inc.FullTypeList, inc.DomainTypeList, inc.KeywordTypeList, inc.RegexpTypeList,
      inc.AttributeRuleUniqueList, rfl, rfl, rfl, rfl, rfl, rfl⟩
  · rw [if_neg h]
    obtain ⟨h1, h2, h3, h4, h5, add, h6⟩ := includeFiltered_fields aw inc.AttributeRuleListMap acc
    exact ⟨[], [], [], [], add, by simp [h1], by simp [h2], by simp [h3], by simp [h4], h6, h5⟩

/-- The attribute loop of one inclusion entry, iterated. -/
theorem foldl_includeOne_fields (inc : ListInfo) :
    ∀ (attrs : List String) (acc : ListInfo),
      ∃ aF aD aK aR aA,
        (attrs.foldl (fun acc2 a => includeOne acc2 inc a) acc).FullTypeList =
            acc.FullTypeList ++ aF
        ∧ (attrs.foldl (fun acc2 a => includeOne acc2 inc a) acc).DomainTypeList =
            acc.DomainTypeList ++ aD
        ∧ (attrs.foldl (fun acc2 a => includeOne acc2 inc a) acc).KeywordTypeList =
            acc.KeywordTypeList ++ aK
        ∧ (attrs.foldl (fun acc2 a => includeOne acc2 inc a) acc).RegexpTypeList =
            acc.RegexpTypeList ++ aR
        ∧ (attrs.foldl (fun acc2 a => includeOne acc2 inc a) acc).AttributeRuleUniqueList =
            acc.AttributeRuleUniqueList ++ aA
        ∧ (attrs.foldl (fun acc2 a => includeOne acc2 inc a) acc).DomainTypeUniqueList =
            acc.DomainTypeUniqueList := by
  intro attrs
  induction attrs with
  | nil => exact fun acc => ⟨[], [], [], [], [], by simp, by simp, by simp, by simp, by simp, rfl⟩
  | cons a rest ih =>
    intro acc
    obtain ⟨bF, bD, bK, bR, bA, g1, g2, g3, g4, g5, g6⟩ := includeOne_fields acc inc a
    obtain ⟨cF, cD, cK, cR, cA, h1, h2, h3, h4, h5, h6⟩ := ih (includeOne acc inc a)
    refine ⟨bF ++ cF, bD ++ cD, bK ++ cK, bR ++ cR, bA ++ cA, ?_, ?_, ?_, ?_, ?_, ?_⟩
    · rw [List.foldl_cons, h1, g1, List.append_assoc]
    · rw [List.foldl_cons, h2, g2, List.append_assoc]
    · rw [List.foldl_cons, h3, g3, List.append_assoc]
    · rw [List.foldl_cons, h4, g4, List.append_assoc]
    · rw [List.foldl_cons, h5, g5, List.append_assoc]
    · rw [List.foldl_cons, h6, g6]

/-- The whole inclusion-merging phase extends the lists in place. -/
theorem flattenEntries_fields (lm : ListInfoMap) :
    ∀ (es : List (String × List String)) (l l1 : ListInfo),
      flattenEntries lm l es = some l1 →
      ∃ aF aD aK aR aA,
        l1.FullTypeList = l.FullTypeList ++ aF
        ∧ l1.DomainTypeList = l.DomainTypeList ++ aD
        ∧ l1.KeywordTypeList = l.KeywordTypeList ++ aK
        ∧ l1.RegexpTypeList = l.RegexpTypeList ++ aR
        ∧ l1.AttributeRuleUniqueList = l.AttributeRuleUniqueList ++ aA
        ∧ l1.DomainTypeUniqueList = l.DomainTypeUniqueList := by
  intro es
  induction es with
  | nil =>
    intro l l1 h
    rw [flattenEntries] at h
    cases h
    exact ⟨[], [], [], [], [], by simp, by simp, by simp, by simp, by simp, rfl⟩
  | cons e rest ih =>
    intro l l1 h
    rw [flattenEntries] at h
    cases he : flattenEntry lm l e with
    | none => rw [he] at h; cases h
    | some l0 =>
      rw [he] at h
      rw [flattenEntry] at he
      cases hx : lookupA lm e.1 with
      | none => rw [hx] at he; cases he
      | some inc =>
        rw [hx] at he
        obtain ⟨bF, bD, bK, bR, bA, g1, g2, g3, g4, g5, g6⟩ :=
          foldl_includeOne_fields inc e.2 l
        obtain ⟨cF, cD, cK, cR, cA, h1, h2, h3, h4, h5, h6⟩ := ih l0 l1 h
        cases he
        refine ⟨bF ++ cF, bD ++ cD, bK ++ cK, bR ++ cR, bA ++ cA, ?_, ?_, ?_, ?_, ?_, ?_⟩
        · rw [h1, g1, List.append_assoc]
        · rw [h2, g2, List.append_assoc]
        · rw [h3, g3, List.append_assoc]
        · rw [h4, g4, List.append_assoc]
        · rw [h5, g5, List.append_assoc]
        · rw [h6, g6]

/-- C9 counterexample: flattening does not leave the file's raw parsed
collection unchanged — an inclusion appends the target's rules into the very
`FullTypeList` the parser built. -/
theorem flatten_mutates_counterexample :
    ∃ l', flatten
        [("X", { NewListInfo "X" with FullTypeList := [⟨DomainType.Full, "f.x", []⟩] })]
        { NewListInfo "A" with
          HasInclusion := true
          InclusionAttributeMap := [("X", ["@"])] } = some l'
      ∧ l'.FullTypeList ≠ ({ NewListInfo "A" with
            HasInclusion := true
            InclusionAttributeMap := [("X", ["@"])] } : ListInfo).FullTypeList := by
  refine ⟨_, rfl, ?_⟩
  decide

/-- C9 amended: `Flatten` writes its results into the same per-file
collection the parser built: pulled-in rules are appended in place to the
raw untagged and tagged lists, `DomainTypeList` is replaced by the sorted
merge of itself with the pulled-in suffix rules, and only
`DomainTypeUniqueList` receives the deduplicated values.  A later file's
resolution that reads this file therefore reads the flattened lists, not
the raw parsed ones. -/
theorem flatten_updates_in_place (lm : ListInfoMap) (l l' : ListInfo)
    (h : flatten lm l = some l') :
    (∃ aF, l'.FullTypeList = l.FullTypeList ++ aF)
    ∧ (∃ aK, l'.KeywordTypeList = l.KeywordTypeList ++ aK)
    ∧ (∃ aR, l'.RegexpTypeList = l.RegexpTypeList ++ aR)
    ∧ (∃ aA, l'.AttributeRuleUniqueList = l.AttributeRuleUniqueList ++ aA)
    ∧ (∃ aD, l'.DomainTypeList = sortByLabelCount (l.DomainTypeList ++ aD))
    ∧ l'.DomainTypeUniqueList = l.DomainTypeUniqueList ++ trieFold [] l'.DomainTypeList := by
  rw [flatten] at h
  cases hfi : flattenIncludes lm l with
  | none => rw [hfi] at h; cases h
  | some l1 =>
    rw [hfi] at h
    have hl1 : ∃ aF aD aK aR aA,
        l1.FullTypeList = l.FullTypeList ++ aF
        ∧ l1.DomainTypeList = l.DomainTypeList ++ aD
        ∧ l1.KeywordTypeList = l.KeywordTypeList ++ aK
        ∧ l1.RegexpTypeList = l.RegexpTypeList ++ aR
        ∧ l1.AttributeRuleUniqueList = l.AttributeRuleUniqueList ++ aA
        ∧ l1.DomainTypeUniqueList = l.DomainTypeUniqueList := by
      rw [flattenIncludes] at hfi
      by_cases hI : l.HasInclusion = true
      · rw [if_pos hI] at hfi
        exact flattenEntries_fields lm l.InclusionAttributeMap l l1 hfi
      · rw [if_neg hI] at hfi
        cases hfi
        exact ⟨[], [], [], [], [], by simp, by simp, by simp, by simp, by simp, rfl⟩
    obtain ⟨aF, aD, aK, aR, aA, e1, e2, e3, e4, e5, e6⟩ := hl1
    cases h
    exact ⟨⟨aF, e1⟩, ⟨aK, e3⟩, ⟨aR, e4⟩, ⟨aA, e5⟩, ⟨aD, by rw [e2]⟩, by rw [e6]⟩

/-- Witness for `flatten_updates_in_place`. -/
theorem flatten_updates_in_place_witness :
    (∃ aF, ([⟨DomainType.Full, "f.x", []⟩] : List Domain) = [] ++ aF)
    ∧ (∃ aK, ([] : List Domain) = [] ++ aK)
    ∧ (∃ aR, ([] : List Domain) = [] ++ aR)
    ∧ (∃ aA, ([] : List Domain) = [] ++ aA)
    ∧ (∃ aD, ([] : List Domain) = sortByLabelCount ([] ++ aD))
    ∧ ([] : List Domain) = [] ++ trieFold [] [] := by
  have h2 := flatten_updates_in_place
    [("X", { NewListInfo "X" with FullTypeList := [⟨DomainType.Full, "f.x", []⟩] })]
    { NewListInfo "A" with
      HasInclusion := true
      InclusionAttributeMap := [("X", ["@"])] }
    { NewListInfo "A" with
      HasInclusion := true
      InclusionAttributeMap := [("X", ["@"])]
      FullTypeList := [⟨DomainType.Full, "f.x", []⟩] }
    rfl
  exact h2

/-! ## Splitting lemmas for the parser claims -/

theorem string_mk_data (s : String) : String.mk s.data = s := by cases s; rfl

theorem string_mk_eq_empty_iff (l : List Char) : String.mk l = "" ↔ l = [] := by
  constructor
  · intro h
    have : (String.mk l).data = ("" : String).data := by rw [h]
    simpa using this
  · intro h; rw [h]

theorem splitOnCharL_ne_nil (sep : Char) (l : List Char) :
    ∃ a as, splitOnCharL sep l = a :: as := by
  cases l with
  | nil => exact ⟨[], [], rfl⟩
  | cons c cs =>
    rw [splitOnCharL]
    by_cases h : c = sep
    · exact ⟨[], splitOnCharL sep cs, by rw [if_pos h]⟩
    · rw [if_neg h]
      obtain ⟨a, as, ha⟩ := splitOnCharL_ne_nil sep cs
      exact ⟨c :: a, as, by rw [ha]⟩

theorem splitOnCharL_no_sep (sep : Char) (l : List Char) (h : sep ∉ l) :
    splitOnCharL sep l = [l] := by
  induction l with
  | nil => rfl
  | cons c cs ih =>
    have hc : ¬(c = sep) := fun hc => h (by rw [hc]; exact List.mem_cons_self _ _)
    have hcs : sep ∉ cs := fun hm => h (List.mem_cons_of_mem _ hm)
    rw [splitOnCharL, if_neg hc, ih hcs]

theorem splitOnCharL_append (sep : Char) (p v : List Char) (h : sep ∉ p) :
    splitOnCharL sep (p ++ sep :: v) = p :: splitOnCharL sep v := by
  induction p with
  | nil => simp [splitOnCharL]
  | cons c cs ih =>
    have hc : ¬(c = sep) := fun hc => h (by rw [hc]; exact List.mem_cons_self _ _)
    have hcs : sep ∉ cs := fun hm => h (List.mem_cons_of_mem _ hm)
    rw [List.cons_append, splitOnCharL, if_neg hc, ih hcs]

theorem splitOnCharL_two_of_mem (sep : Char) (l : List Char) (h : sep ∈ l) :
    ∃ x y rest, splitOnCharL sep l = x :: y :: rest := by
  induction l with
  | nil => cases h
  | cons c cs ih =>
    rw [splitOnCharL]
    by_cases hc : c = sep
    · obtain ⟨a, as, ha⟩ := splitOnCharL_ne_nil sep cs
      exact ⟨[], a, as, by rw [if_pos hc, ha]⟩
    · have hm : sep ∈ cs := by
        cases List.mem_cons.mp h with
        | inl he => exact absurd he.symm hc
        | inr hm => exact hm
      obtain ⟨x, y, rest, hx⟩ := ih hm
      exact ⟨c :: x, y, rest, by rw [if_neg hc, hx]⟩

/-- C4 counterexample: a token with two colons is handled by neither branch
of `parseTypeRule`: the rule keeps its zero values (kind `Plain`, empty
value) instead of being split on the first `:` into a Full rule with value
`a:b`. -/
theorem double_colon_token_counterexample :
    parseTypeRule "full:a:b" = Except.ok (DomainType.Plain, "")
      ∧ parseTypeRule "full:a:b" ≠ Except.ok (DomainType.Full, "a:b") := by
  constructor
  · rfl
  · intro hbad
    have h1 : parseTypeRule "full:a:b" = Except.ok (DomainType.Plain, "") := rfl
    rw [h1] at hbad
    have h2 := Except.ok.inj hbad
    have h3 := congrArg Prod.fst h2
    exact DomainType.noConfusion h3

/-- C4 amended: a rule token without `:` defaults to Suffix with lower-cased
trimmed value; a token with exactly one `:` is split there — a recognized
case-insensitive prefix (`full`, `domain`, `keyword`, `regexp`) determines
the kind, an unrecognized prefix is a parse error, and the value is
lower-cased except for `regexp`, whose value is kept (up to trimming)
verbatim; a token with two or more `:` falls through both branches and
yields the zero rule (kind `Plain`, empty value) with no error. -/
theorem parseTypeRule_split_cases :
    (∀ s : String, ':' ∉ s.data →
      parseTypeRule s = Except.ok (DomainType.RootDomain, toLowerS (trimSpace s)))
    ∧ (∀ p v : String, ':' ∉ p.data → ':' ∉ v.data →
        parseTypeRule (p ++ ":" ++ v) =
          (let rt := toLowerS (trimSpace p)
           if rt = "full" then Except.ok (DomainType.Full, toLowerS (trimSpace v))
           else if rt = "domain" then Except.ok (DomainType.RootDomain, toLowerS (trimSpace v))
           else if rt = "keyword" then Except.ok (DomainType.Plain, toLowerS (trimSpace v))
           else if rt = "regexp" then Except.ok (DomainType.Regex, trimSpace v)
           else Except.error (ParseErr.unknownType (trimSpace p))))
    ∧ (∀ p v : String, ':' ∉ p.data → ':' ∈ v.data →
        parseTypeRule (p ++ ":" ++ v) = Except.ok (DomainType.Plain, "")) := by
  refine ⟨?_, ?_, ?_⟩
  · intro s hs
    rw [parseTypeRule, splitOnC, splitOnCharL_no_sep ':' s.data hs]
    simp [string_mk_data]
  · intro p v hp hv
    have hd : (p ++ ":" ++ v).data = p.data ++ ':' :: v.data := by
      simp [String.data_append]
    rw [parseTypeRule, splitOnC, hd, splitOnCharL_append ':' p.data v.data hp,
        splitOnCharL_no_sep ':' v.data hv]
    simp [string_mk_data]
  · intro p v hp hv
    have hd : (p ++ ":" ++ v).data = p.data ++ ':' :: v.data := by
      simp [String.data_append]
    obtain ⟨x, y, rest, hx⟩ := splitOnCharL_two_of_mem ':' v.data hv
    rw [parseTypeRule, splitOnC, hd, splitOnCharL_append ':' p.data v.data hp, hx]
    rfl

/-- Witness for `parseTypeRule_split_cases`. -/
theorem parseTypeRule_split_cases_witness :
    parseTypeRule "Ex.Com" = Except.ok (DomainType.RootDomain, toLowerS (trimSpace "Ex.Com"))
    ∧ parseTypeRule ("FULL" ++ ":" ++ "A.B") =
        (let rt := toLowerS (trimSpace "FULL")
         if rt = "full" then Except.ok (DomainType.Full, toLowerS (trimSpace "A.B"))
         else if rt = "domain" then Except.ok (DomainType.RootDomain, toLowerS (trimSpace "A.B"))
         else if rt = "keyword" then Except.ok (DomainType.Plain, toLowerS (trimSpace "A.B"))
         else if rt = "regexp" then Except.ok (DomainType.Regex, trimSpace "A.B")
         else Except.error (ParseErr.unknownType (trimSpace "FULL")))
    ∧ parseTypeRule ("full" ++ ":" ++ "a:b") = Except.ok (DomainType.Plain, "") :=
  ⟨parseTypeRule_split_cases.1 "Ex.Com" (by decide),
   parseTypeRule_split_cases.2.1 "FULL" "A.B" (by decide) (by decide),
   parseTypeRule_split_cases.2.2 "full" "a:b" (by decide) (by decide)⟩

/-! ## C10: the empty-rule branch of `parseRule` is unreachable -/

theorem dropWhile_head_false {p : Char → Bool} {s : List Char} {c : Char} {r : List Char}
    (h : s.dropWhile p = c :: r) : p c = false := by
  induction s with
  | nil => cases h
  | cons a as ih =>
    rw [List.dropWhile] at h
    cases hp : p a with
    | true => rw [hp] at h; exact ih h
    | false =>
      rw [hp] at h
      cases h
      exact hp

theorem dropWhile_append_singleton (p : Char → Bool) (c : Char) (hc : p c = false)
    (xs : List Char) : (xs ++ [c]).dropWhile p = xs.dropWhile p ++ [c] := by
  induction xs with
  | nil => simp [List.dropWhile, hc]
  | cons a as ih =>
    cases hp : p a with
    | true => simp [List.dropWhile, hp, ih]
    | false => simp [List.dropWhile, hp]

theorem trimL_head_not_space (s : List Char) (h : trimL s ≠ []) :
    ∃ c t, trimL s = c :: t ∧ goIsSpace c = false := by
  rw [trimL] at h ⊢
  cases hu : (s.dropWhile goIsSpace) with
  | nil =>
    rw [hu] at h
    simp at h
  | cons c u =>
    have hc : goIsSpace c = false := dropWhile_head_false hu
    refine ⟨c, (u.reverse.dropWhile goIsSpace).reverse, ?_, hc⟩
    rw [List.reverse_cons, dropWhile_append_singleton goIsSpace c hc u.reverse]
    simp

theorem trimL_cons_not_space_ne_nil (c : Char) (p : List Char) (hc : goIsSpace c = false) :
    trimL (c :: p) ≠ [] := by
  rw [trimL]
  have hd : (c :: p).dropWhile goIsSpace = c :: p := by
    rw [List.dropWhile_cons_of_neg]
    simp [hc]
  rw [hd]
  intro hnil
  have : (c :: p).reverse.dropWhile goIsSpace = [] := by
    have := congrArg List.reverse hnil
    simpa using this
  have hall := List.dropWhile_eq_nil_iff.mp this
  have : goIsSpace c = true := hall c (by simp)
  rw [this] at hc
  cases hc

/-- The first space-split token of a trimmed non-empty line is non-empty
after trimming. -/
theorem first_token_ne_empty (line : String) (h : trimSpace line ≠ "") :
    trimSpace ((splitOnC ' ' (trimSpace line)).headD "") ≠ "" := by
  have hdata : trimL line.data ≠ [] := by
    intro hnil
    exact h (by rw [trimSpace, hnil])
  obtain ⟨c, t, hct, hc⟩ := trimL_head_not_space line.data hdata
  have hcns : ¬(c = ' ') := by
    intro he
    rw [he] at hc
    simp [goIsSpace] at hc
  obtain ⟨a, as, ha⟩ := splitOnCharL_ne_nil ' ' t
  have hsplit : splitOnCharL ' ' (trimSpace line).data = (c :: a) :: as := by
    show splitOnCharL ' ' (trimL line.data) = (c :: a) :: as
    rw [hct, splitOnCharL, if_neg hcns, ha]
  rw [splitOnC, hsplit]
  show trimSpace (String.mk (c :: a)) ≠ ""
  rw [trimSpace, string_mk_data]
  intro hbad
  exact trimL_cons_not_space_ne_nil c a hc ((string_mk_eq_empty_iff _).mp hbad)

theorem parseTypeRule_error_shape (domain : String) (e : ParseErr)
    (h : parseTypeRule domain = Except.error e) : ∃ s, e = ParseErr.unknownType s := by
  rw [parseTypeRule] at h
  rcases hsp : splitOnC ':' domain with _ | ⟨a, _ | ⟨b, _ | ⟨c, rest⟩⟩⟩ <;> rw [hsp] at h
  · cases h
  · cases h
  · simp only at h
    split_ifs at h
    all_goals cases h
    exact ⟨trimSpace a, rfl⟩
  · cases h

theorem parseAttribute_error_shape (attr : String) (e : ParseErr)
    (h : parseAttribute attr = Except.error e) : ∃ s, e = ParseErr.invalidAttr s := by
  rw [parseAttribute] at h
  rcases hd : attr.data with _ | ⟨c, rest⟩ <;> rw [hd] at h
  · exact ⟨attr, (Except.error.inj h).symm⟩
  · simp only at h
    by_cases hc : c = '@'
    · rw [if_pos hc] at h; cases h
    · rw [if_neg hc] at h
      exact ⟨attr, (Except.error.inj h).symm⟩

theorem parseAttrs_error_shape : ∀ (parts : List String) (e : ParseErr),
    parseAttrs parts = Except.error e → ∃ s, e = ParseErr.invalidAttr s := by
  intro parts
  induction parts with
  | nil => intro e h; cases h
  | cons a rest ih =>
    intro e h
    rw [parseAttrs] at h
    by_cases ha : trimSpace a = ""
    · rw [if_pos ha] at h
      exact ih e h
    · rw [if_neg ha] at h
      cases hpa : parseAttribute (trimSpace a) with
      | error e0 =>
        rw [hpa] at h
        cases h
        exact parseAttribute_error_shape _ _ hpa
      | ok key =>
        rw [hpa] at h
        cases hrest : parseAttrs rest with
        | error e1 =>
          rw [hrest] at h
          cases h
          exact ih _ hrest
        | ok keys => rw [hrest] at h; cases h

/-- C10: on a line that is non-empty after trimming and does not begin with
`include:`, the first space-split token is non-empty after trimming — so
`parseRule`'s `empty rule` branch is unreachable, and the only errors
`parseRule` can raise come from `parseTypeRule` (unknown type prefix) or
`parseAttribute` (invalid attribute token). -/
theorem parseRule_empty_rule_unreachable (l : ListInfo) (line : String)
    (h1 : trimSpace line ≠ "") (h2 : hasPrefixS (trimSpace line) "include:" = false) :
    trimSpace ((splitOnC ' ' (trimSpace line)).headD "") ≠ ""
    ∧ ∀ e, parseRule l line = Except.error e →
        (∃ s, e = ParseErr.unknownType s) ∨ (∃ s, e = ParseErr.invalidAttr s) := by
  have htok := first_token_ne_empty line h1
  refine ⟨htok, ?_⟩
  intro e h
  rw [parseRule] at h
  rw [if_neg h1] at h
  rw [h2] at h
  simp only [Bool.false_eq_true, if_false] at h
  rw [if_neg htok] at h
  cases hptr : parseTypeRule (trimSpace ((splitOnC ' ' (trimSpace line)).headD "")) with
  | error e0 =>
    rw [hptr] at h
    cases h
    exact Or.inl (parseTypeRule_error_shape _ _ hptr)
  | ok tv =>
    rw [hptr] at h
    cases hpa : parseAttrs ((splitOnC ' ' (trimSpace line)).drop 1) with
    | error e1 =>
      rw [hpa] at h
      cases h
      exact Or.inr (parseAttrs_error_shape _ _ hpa)
    | ok attrs => rw [hpa] at h; cases h

/-- Witness for `parseRule_empty_rule_unreachable`. -/
theorem parseRule_empty_rule_unreachable_witness :
    trimSpace ((splitOnC ' ' (trimSpace " a.com @cn ")).headD "") ≠ ""
    ∧ ∀ e, parseRule (NewListInfo "A") " a.com @cn " = Except.error e →
        (∃ s, e = ParseErr.unknownType s) ∨ (∃ s, e = ParseErr.invalidAttr s) :=
  parseRule_empty_rule_unreachable (NewListInfo "A") " a.com @cn " (by decide) (by decide)

/-! ## C1: the Domain Trie coverage invariant -/

/-- Join a list of segments with a separator: left inverse of `splitOnCharL`. -/
def joinSep (sep : Char) : List (List Char) → List Char
  | [] => []
  | [x] => x
  | x :: y :: ys => x ++ sep :: joinSep sep (y :: ys)

theorem joinSep_splitOnCharL (sep : Char) : ∀ l, joinSep sep (splitOnCharL sep l) = l := by
  intro l
  induction l with
  | nil => rfl
  | cons c cs ih =>
    rw [splitOnCharL]
    obtain ⟨a, as, ha⟩ := splitOnCharL_ne_nil sep cs
    by_cases hc : c = sep
    · rw [if_pos hc, ha]
      show sep :: joinSep sep (a :: as) = c :: cs
      rw [← ha, ih, hc]
    · rw [if_neg hc, ha]
      cases as with
      | nil =>
        show c :: a = c :: cs
        have : joinSep sep (splitOnCharL sep cs) = cs := ih
        rw [ha] at this
        rw [show joinSep sep [a] = a from rfl] at this
        rw [this]
      | cons b bs =>
        show (c :: a) ++ sep :: joinSep sep (b :: bs) = c :: cs
        have : joinSep sep (splitOnCharL sep cs) = cs := ih
        rw [ha] at this
        rw [show joinSep sep (a :: b :: bs) = a ++ sep :: joinSep sep (b :: bs) from rfl] at this
        rw [List.cons_append, this]

theorem splitOnCharL_inj (sep : Char) {l1 l2 : List Char}
    (h : splitOnCharL sep l1 = splitOnCharL sep l2) : l1 = l2 := by
  rw [← joinSep_splitOnCharL sep l1, ← joinSep_splitOnCharL sep l2, h]

theorem splitOnC_inj (sep : Char) {u v : String}
    (h : splitOnC sep u = splitOnC sep v) : u = v := by
  rw [splitOnC, splitOnC] at h
  have hdata : splitOnCharL sep u.data = splitOnCharL sep v.data := by
    have h2 := congrArg (List.map String.data) h
    rw [List.map_map, List.map_map] at h2
    have hid : (String.data ∘ String.mk) = id := by
      funext x
      rfl
    rw [hid, List.map_id, List.map_id] at h2
    exact h2
  have := splitOnCharL_inj sep hdata
  rw [← string_mk_data u, ← string_mk_data v, this]

/-- Sort key order used by `Flatten`. -/
def leD (a b : Domain) : Prop := labelCount a.Value ≤ labelCount b.Value

theorem mem_insertSorted (a x : Domain) : ∀ l, x ∈ insertSorted a l ↔ x = a ∨ x ∈ l := by
  intro l
  induction l with
  | nil => simp [insertSorted]
  | cons b bs ih =>
    rw [insertSorted]
    by_cases h : labelCount a.Value ≤ labelCount b.Value
    · rw [if_pos h]
      simp [List.mem_cons]
    · rw [if_neg h]
      simp only [List.mem_cons, ih]
      tauto

theorem pairwise_insertSorted (a : Domain) :
    ∀ l, List.Pairwise leD l → List.Pairwise leD (insertSorted a l) := by
  intro l
  induction l with
  | nil => intro _; simp [insertSorted, List.Pairwise]
  | cons b bs ih =>
    intro hp
    obtain ⟨hb, hbs⟩ := List.pairwise_cons.mp hp
    rw [insertSorted]
    by_cases h : labelCount a.Value ≤ labelCount b.Value
    · rw [if_pos h]
      refine List.pairwise_cons.mpr ⟨?_, hp⟩
      intro x hx
      rcases List.mem_cons.mp hx with rfl | hx2
      · exact h
      · exact Nat.le_trans h (hb x hx2)
    · rw [if_neg h]
      refine List.pairwise_cons.mpr ⟨?_, ih hbs⟩
      intro x hx
      rcases (mem_insertSorted a x bs).mp hx with rfl | hx2
      · exact Nat.le_of_lt (Nat.lt_of_not_le h)
      · exact hb x hx2

theorem pairwise_sortByLabelCount (l : List Domain) :
    List.Pairwise leD (sortByLabelCount l) := by
  induction l with
  | nil => simp [sortByLabelCount, List.Pairwise]
  | cons a rest ih => exact pairwise_insertSorted a _ ih

theorem mem_sortByLabelCount (x : Domain) (l : List Domain) :
    x ∈ sortByLabelCount l ↔ x ∈ l := by
  induction l with
  | nil => simp [sortByLabelCount]
  | cons a rest ih =>
    show x ∈ insertSorted a (sortByLabelCount rest) ↔ _
    rw [mem_insertSorted, ih]
    simp [List.mem_cons]

theorem dotSuffixB_trans {u v w : String} (h1 : dotSuffixB u v = true)
    (h2 : dotSuffixB v w = true) : dotSuffixB u w = true := by
  rw [dotSuffixB, List.isPrefixOf_iff_prefix] at h1 h2 ⊢
  exact h1.trans h2

theorem dotSuffixB_self (v : String) : dotSuffixB v v = true := by
  rw [dotSuffixB, List.isPrefixOf_iff_prefix]

theorem strictDotSuffixB_self (v : String) : strictDotSuffixB v v = false := by
  simp [strictDotSuffixB]

theorem strictDotSuffixB_iff (a b : String) :
    strictDotSuffixB a b = true ↔ dotSuffixB a b = true ∧ labelCount a < labelCount b := by
  simp [strictDotSuffixB]

/-- A mutual dot-suffix pair whose covering side is not strict collapses to
equality. -/
theorem dotSuffixB_antisymm_of_not_lt {u v : String} (h : dotSuffixB u v = true)
    (hle : ¬ labelCount u < labelCount v) : u = v := by
  rw [dotSuffixB, List.isPrefixOf_iff_prefix] at h
  have hlen1 : (splitOnC '.' u).reverse.length ≤ (splitOnC '.' v).reverse.length :=
    h.length_le
  have hlen2 : labelCount u ≤ labelCount v := by
    simpa [labelCount] using hlen1
  have heq : labelCount u = labelCount v := by
    rcases Nat.lt_or_ge (labelCount u) (labelCount v) with hlt | hge
    · exact absurd hlt hle
    · exact Nat.le_antisymm hlen2 hge
  have hlenr : (splitOnC '.' u).reverse.length = (splitOnC '.' v).reverse.length := by
    simpa [labelCount] using heq
  have hrev : (splitOnC '.' u).reverse = (splitOnC '.' v).reverse := h.eq_of_length hlenr
  exact splitOnC_inj '.' (List.reverse_injective hrev)

theorem trieFold_subset : ∀ (l : List Domain) (acc : List String),
    ∀ d ∈ trieFold acc l, d ∈ l := by
  intro l
  induction l with
  | nil => intro acc d hd; cases hd
  | cons e es ih =>
    intro acc d hd
    rw [trieFold] at hd
    cases hany : (acc.any fun v => dotSuffixB v e.Value) with
    | true =>
      rw [hany] at hd
      simp only [if_true] at hd
      exact List.mem_cons_of_mem _ (ih acc d hd)
    | false =>
      rw [hany] at hd
      simp only [Bool.false_eq_true, if_false] at hd
      rcases List.mem_cons.mp hd with rfl | hd2
      · exact List.mem_cons_self _ _
      · exact List.mem_cons_of_mem _ (ih _ d hd2)

theorem trieFold_not_covered : ∀ (l : List Domain) (acc : List String),
    ∀ d ∈ trieFold acc l, ∀ v ∈ acc, dotSuffixB v d.Value = false := by
  intro l
  induction l with
  | nil => intro acc d hd; cases hd
  | cons e es ih =>
    intro acc d hd v hv
    rw [trieFold] at hd
    cases hany : (acc.any fun v => dotSuffixB v e.Value) with
    | true =>
      rw [hany] at hd
      simp only [if_true] at hd
      exact ih acc d hd v hv
    | false =>
      rw [hany] at hd
      simp only [Bool.false_eq_true, if_false] at hd
      rcases List.mem_cons.mp hd with rfl | hd2
      · exact Bool.eq_false_iff.mpr (List.any_eq_false.mp hany v hv)
      · exact ih _ d hd2 v (List.mem_append_left _ hv)

/-- No two outputs of the trie walk over a label-count-sorted candidate list
stand in a strict dot-suffix relationship. -/
theorem trieFold_no_strict_pair : ∀ (l : List Domain) (acc : List String),
    List.Pairwise leD l →
    ∀ a ∈ trieFold acc l, ∀ b ∈ trieFold acc l,
      strictDotSuffixB a.Value b.Value = false := by
  intro l
  induction l with
  | nil => intro acc _ a ha; cases ha
  | cons e es ih =>
    intro acc hp a ha b hb
    obtain ⟨hhead, htail⟩ := List.pairwise_cons.mp hp
    rw [trieFold] at ha hb
    cases hany : (acc.any fun v => dotSuffixB v e.Value) with
    | true =>
      rw [hany] at ha hb
      simp only [if_true] at ha hb
      exact ih acc htail a ha b hb
    | false =>
      rw [hany] at ha hb
      simp only [Bool.false_eq_true, if_false] at ha hb
      rcases List.mem_cons.mp ha with rfl | ha2
      · rcases List.mem_cons.mp hb with rfl | hb2
        · exact strictDotSuffixB_self _
        · have hnc : dotSuffixB a.Value b.Value = false :=
            trieFold_not_covered es (acc ++ [a.Value]) b hb2 a.Value
              (List.mem_append_right _ (List.mem_cons_self _ _))
          simp [strictDotSuffixB, hnc]
      · rcases List.mem_cons.mp hb with rfl | hb2
        · have hle : labelCount b.Value ≤ labelCount a.Value :=
            hhead a (trieFold_subset es _ a ha2)
          have hnlt : ¬(labelCount a.Value < labelCount b.Value) := Nat.not_lt.mpr hle
          simp [strictDotSuffixB, hnlt]
        · exact ih _ htail a ha2 b hb2

/-- Any candidate strictly covered by another candidate (or by an already
accepted value) never survives the trie walk. -/
theorem trieFold_drops_covered : ∀ (l : List Domain) (acc : List String) (bval : String),
    List.Pairwise leD l →
    ((∃ a ∈ l, strictDotSuffixB a.Value bval = true)
      ∨ (∃ v ∈ acc, dotSuffixB v bval = true)) →
    ∀ d ∈ trieFold acc l, d.Value ≠ bval := by
  intro l
  induction l with
  | nil => intro acc bval _ _ d hd; cases hd
  | cons e es ih =>
    intro acc bval hp hcov d hd
    obtain ⟨hhead, htail⟩ := List.pairwise_cons.mp hp
    rw [trieFold] at hd
    cases hany : (acc.any fun v => dotSuffixB v e.Value) with
    | true =>
      rw [hany] at hd
      simp only [if_true] at hd
      obtain ⟨u, hu, hue⟩ := List.any_eq_true.mp hany
      refine ih acc bval htail ?_ d hd
      rcases hcov with ⟨a, hal, ha⟩ | hr
      · rcases List.mem_cons.mp hal with rfl | ha2
        · refine Or.inr ⟨u, hu, ?_⟩
          exact dotSuffixB_trans hue ((strictDotSuffixB_iff _ _).mp ha).1
        · exact Or.inl ⟨a, ha2, ha⟩
      · exact Or.inr hr
    | false =>
      rw [hany] at hd
      simp only [Bool.false_eq_true, if_false] at hd
      rcases List.mem_cons.mp hd with rfl | hd2
      · -- the accepted head cannot be the covered value
        intro heq
        rcases hcov with ⟨a, hal, ha⟩ | ⟨v, hv, hvb⟩
        · rcases List.mem_cons.mp hal with rfl | ha2
          · rw [heq] at ha
            rw [strictDotSuffixB_self] at ha
            cases ha
          · have h1 : labelCount d.Value ≤ labelCount a.Value :=
              hhead a ha2
            have h2 : labelCount a.Value < labelCount bval :=
              ((strictDotSuffixB_iff _ _).mp ha).2
            rw [heq] at h1
            exact Nat.lt_irrefl _ (Nat.lt_of_le_of_lt h1 h2)
        · have := List.any_eq_false.mp hany v hv
          rw [heq] at this
          exact this hvb
      · refine ih (acc ++ [e.Value]) bval htail ?_ d hd2
        rcases hcov with ⟨a, hal, ha⟩ | ⟨v, hv, hvb⟩
        · rcases List.mem_cons.mp hal with rfl | ha2
          · refine Or.inr ⟨a.Value, List.mem_append_right _ (List.mem_cons_self _ _), ?_⟩
            exact ((strictDotSuffixB_iff _ _).mp ha).1
          · exact Or.inl ⟨a, ha2, ha⟩
        · exact Or.inr ⟨v, List.mem_append_left _ hv, hvb⟩

/-- A candidate value that no other candidate strictly covers survives the
trie walk (or was already accepted). -/
theorem trieFold_keeps_uncovered : ∀ (l : List Domain) (acc : List String) (v : String),
    (∃ d ∈ l, d.Value = v) →
    (∀ c ∈ l, strictDotSuffixB c.Value v = false) →
    (∀ u ∈ acc, strictDotSuffixB u v = false) →
    (∃ d ∈ trieFold acc l, d.Value = v) ∨ v ∈ acc := by
  intro l
  induction l with
  | nil => intro acc v hex _ _; cases hex with | intro d hd => cases hd.1
  | cons e es ih =>
    intro acc v hex hl hacc
    rw [trieFold]
    cases hany : (acc.any fun u => dotSuffixB u e.Value) with
    | true =>
      simp only [if_true]
      by_cases hev : e.Value = v
      · obtain ⟨u, hu, hue⟩ := List.any_eq_true.mp hany
        rw [hev] at hue
        have hnstrict := hacc u hu
        have hnlt : ¬(labelCount u < labelCount v) := by
          intro hlt
          rw [(strictDotSuffixB_iff u v).symm.mp ⟨hue, hlt⟩] at hnstrict
          cases hnstrict
        have : u = v := dotSuffixB_antisymm_of_not_lt hue hnlt
        exact Or.inr (this ▸ hu)
      · obtain ⟨d, hd, hdv⟩ := hex
        rcases List.mem_cons.mp hd with rfl | hd2
        · exact absurd hdv hev
        · exact ih acc v ⟨d, hd2, hdv⟩ (fun c hc => hl c (List.mem_cons_of_mem _ hc)) hacc
    | false =>
      simp only [Bool.false_eq_true, if_false]
      by_cases hev : e.Value = v
      · exact Or.inl ⟨e, List.mem_cons_self _ _, hev⟩
      · obtain ⟨d, hd, hdv⟩ := hex
        rcases List.mem_cons.mp hd with rfl | hd2
        · exact absurd hdv hev
        · have hacc2 : ∀ u ∈ acc ++ [e.Value], strictDotSuffixB u v = false := by
            intro u hu
            rcases List.mem_append.mp hu with hu1 | hu2
            · exact hacc u hu1
            · rcases List.mem_cons.mp hu2 with rfl | hu3
              · exact hl e (List.mem_cons_self _ _)
              · cases hu3
          rcases ih (acc ++ [e.Value]) v ⟨d, hd2, hdv⟩
              (fun c hc => hl c (List.mem_cons_of_mem _ hc)) hacc2 with hL | hR
          · obtain ⟨d0, hd0, hd0v⟩ := hL
            exact Or.inl ⟨d0, List.mem_cons_of_mem _ hd0, hd0v⟩
          · rcases List.mem_append.mp hR with hR1 | hR2
            · exact Or.inr hR1
            · rcases List.mem_cons.mp hR2 with heq | hco
              · exact absurd heq.symm hev
              · cases hco

theorem flattenIncludes_unique_preserved (lm : ListInfoMap) (l l1 : ListInfo)
    (h : flattenIncludes lm l = some l1) :
    l1.DomainTypeUniqueList = l.DomainTypeUniqueList := by
  rw [flattenIncludes] at h
  by_cases hI : l.HasInclusion = true
  · rw [if_pos hI] at h
    obtain ⟨-, -, -, -, -, -, -, -, -, -, h6⟩ :=
      flattenEntries_fields lm l.InclusionAttributeMap l l1 h
    exact h6
  · rw [if_neg hI] at h
    cases h
    rfl

/-- C1 (amended): after flattening (with the parser-initial empty unique
list), the deduplicated untagged Suffix list contains no two values in a
strict dot-suffix relationship; every candidate strictly covered by another
candidate is dropped from it; and a candidate value that no other candidate
strictly covers survives.  The literal reading "of any pair in a dot-suffix
relation the less specific value survives" fails when that value is itself
covered by a still less specific third candidate. -/
theorem flatten_suffix_dedup_invariant (lm : ListInfoMap) (l l' : ListInfo)
    (hU : l.DomainTypeUniqueList = [])
    (h : flatten lm l = some l') :
    (∀ a ∈ l'.DomainTypeUniqueList, ∀ b ∈ l'.DomainTypeUniqueList,
        strictDotSuffixB a.Value b.Value = false)
    ∧ (∀ b ∈ l'.DomainTypeList,
        (∃ a ∈ l'.DomainTypeList, strictDotSuffixB a.Value b.Value = true) →
        ∀ d ∈ l'.DomainTypeUniqueList, d.Value ≠ b.Value)
    ∧ (∀ a ∈ l'.DomainTypeList,
        (∀ c ∈ l'.DomainTypeList, strictDotSuffixB c.Value a.Value = false) →
        ∃ d ∈ l'.DomainTypeUniqueList, d.Value = a.Value) := by
  rw [flatten] at h
  cases hfi : flattenIncludes lm l with
  | none => rw [hfi] at h; cases h
  | some l1 =>
    rw [hfi] at h
    have hU1 : l1.DomainTypeUniqueList = [] := by
      rw [flattenIncludes_unique_preserved lm l l1 hfi, hU]
    cases h
    simp only [hU1, List.nil_append]
    have hpw := pairwise_sortByLabelCount l1.DomainTypeList
    refine ⟨?_, ?_, ?_⟩
    · intro a ha b hb
      exact trieFold_no_strict_pair _ [] hpw a ha b hb
    · intro b _ hex d hd
      exact trieFold_drops_covered _ [] b.Value hpw (Or.inl hex) d hd
    · intro a ha hnone
      rcases trieFold_keeps_uncovered (sortByLabelCount l1.DomainTypeList) [] a.Value
          ⟨a, ha, rfl⟩ hnone (fun u hu => absurd hu (List.not_mem_nil u)) with hL | hR
      · exact hL
      · cases hR

/-- A file whose suffix candidates form the chain `com`, `b.com`,
`a.b.com`. -/
def suffixChainFile : ListInfo :=
  { NewListInfo "A" with
    DomainTypeList := [⟨DomainType.RootDomain, "com", []⟩,
                       ⟨DomainType.RootDomain, "b.com", []⟩,
                       ⟨DomainType.RootDomain, "a.b.com", []⟩] }

/-- C1 counterexample: `b.com` and `a.b.com` are candidates standing in a
dot-suffix relationship, yet the less specific of the pair, `b.com`, does
not survive the deduplication (it is itself covered by `com`) — refuting
the claim that in any such pair the less specific value survives. -/
theorem less_specific_dropped_counterexample :
    ∃ l', flatten [] suffixChainFile = some l'
      ∧ (⟨DomainType.RootDomain, "b.com", []⟩ : Domain) ∈ l'.DomainTypeList
      ∧ (⟨DomainType.RootDomain, "a.b.com", []⟩ : Domain) ∈ l'.DomainTypeList
      ∧ strictDotSuffixB "b.com" "a.b.com" = true
      ∧ ∀ d ∈ l'.DomainTypeUniqueList, d.Value ≠ "b.com" := by
  refine ⟨_, rfl, ?_, ?_, ?_, ?_⟩ <;> decide

/-- Witness for `flatten_suffix_dedup_invariant`. -/
theorem flatten_suffix_dedup_invariant_witness :
    ∃ l', flatten [] suffixChainFile = some l'
      ∧ ((∀ a ∈ l'.DomainTypeUniqueList, ∀ b ∈ l'.DomainTypeUniqueList,
            strictDotSuffixB a.Value b.Value = false)
        ∧ (∀ b ∈ l'.DomainTypeList,
            (∃ a ∈ l'.DomainTypeList, strictDotSuffixB a.Value b.Value = true) →
            ∀ d ∈ l'.DomainTypeUniqueList, d.Value ≠ b.Value)
        ∧ (∀ a ∈ l'.DomainTypeList,
            (∀ c ∈ l'.DomainTypeList, strictDotSuffixB c.Value a.Value = false) →
            ∃ d ∈ l'.DomainTypeUniqueList, d.Value = a.Value)) :=
  ⟨_, rfl, flatten_suffix_dedup_invariant [] suffixChainFile _ rfl rfl⟩

/-! ## C2: substring matching of concatenated tag keys -/

theorem startsWithL_iff : ∀ (pat s : List Char),
    startsWithL s pat = true ↔ ∃ rest, s = pat ++ rest := by
  intro pat
  induction pat with
  | nil =>
    intro s
    simp [startsWithL]
  | cons p ps ih =>
    intro s
    cases s with
    | nil =>
      simp [startsWithL]
    | cons c s2 =>
      rw [startsWithL]
      simp only [Bool.and_eq_true, decide_eq_true_eq, ih]
      constructor
      · rintro ⟨rfl, rest, rfl⟩
        exact ⟨rest, rfl⟩
      · rintro ⟨rest, heq⟩
        rw [List.cons_append] at heq
        injection heq with h1 h2
        exact ⟨h1, rest, h2⟩

theorem containsL_iff : ∀ (s pat : List Char),
    containsL pat s = true ↔ ∃ u v, s = u ++ pat ++ v := by
  intro s
  induction s with
  | nil =>
    intro pat
    rw [containsL, startsWithL_iff]
    constructor
    · rintro ⟨rest, h⟩
      exact ⟨[], rest, by simpa using h⟩
    · rintro ⟨u, v, h⟩
      refine ⟨v, ?_⟩
      rcases List.append_eq_nil.mp ((List.append_assoc u pat v) ▸ h.symm) with ⟨h1, h2⟩
      rw [h1] at h
      simpa using h
  | cons c s2 ih =>
    intro pat
    rw [containsL]
    simp only [Bool.or_eq_true, startsWithL_iff, ih]
    constructor
    · rintro (⟨rest, hr⟩ | ⟨u, v, hr⟩)
      · exact ⟨[], rest, by simpa using hr⟩
      · exact ⟨c :: u, v, by rw [hr]; rfl⟩
    · rintro ⟨u, v, hr⟩
      cases u with
      | nil => exact Or.inl ⟨v, by simpa using hr⟩
      | cons d u2 =>
        rw [List.cons_append, List.cons_append] at hr
        injection hr with h1 h2
        exact Or.inr ⟨u2, v, h2⟩

/-- Two `'@'`-free words followed by `'@'`-headed tails align. -/
theorem atfree_align : ∀ (a b x y : List Char),
    a ++ x = b ++ y → '@' ∉ a → '@' ∉ b →
    (∃ xr, x = '@' :: xr) → (∃ yr, y = '@' :: yr) → a = b := by
  intro a
  induction a with
  | nil =>
    intro b x y heq _ hb hx hy
    cases b with
    | nil => rfl
    | cons d b2 =>
      exfalso
      obtain ⟨xr, rfl⟩ := hx
      rw [List.nil_append, List.cons_append] at heq
      injection heq with h1 _
      exact hb (h1 ▸ List.mem_cons_self _ _)
  | cons c a2 ih =>
    intro b x y heq ha hb hx hy
    cases b with
    | nil =>
      exfalso
      obtain ⟨yr, rfl⟩ := hy
      rw [List.nil_append, List.cons_append] at heq
      injection heq with h1 _
      exact ha (h1.symm ▸ List.mem_cons_self _ _)
    | cons d b2 =>
      rw [List.cons_append, List.cons_append] at heq
      injection heq with h1 h2
      have := ih b2 x y h2 (fun hm => ha (List.mem_cons_of_mem _ hm))
        (fun hm => hb (List.mem_cons_of_mem _ hm)) hx hy
      rw [h1, this]

/-- An occurrence of an `'@'`-headed pattern inside `t ++ R` with `t`
`'@'`-free must lie inside `R`. -/
theorem atfree_skip : ∀ (t u R rest : List Char),
    t ++ R = u ++ '@' :: rest → '@' ∉ t →
    ∃ u2, u = t ++ u2 ∧ R = u2 ++ '@' :: rest := by
  intro t
  induction t with
  | nil =>
    intro u R rest heq _
    exact ⟨u, rfl, by simpa using heq⟩
  | cons c t2 ih =>
    intro u R rest heq ht
    cases u with
    | nil =>
      exfalso
      rw [List.nil_append, List.cons_append] at heq
      injection heq with h1 _
      exact ht (h1 ▸ List.mem_cons_self _ _)
    | cons e u2 =>
      rw [List.cons_append, List.cons_append] at heq
      injection heq with h1 h2
      obtain ⟨u3, hu3, hR⟩ := ih u2 R rest h2 (fun hm => ht (List.mem_cons_of_mem _ hm))
      exact ⟨u3, by rw [List.cons_append, hu3, h1], hR⟩

/-- The concatenation `"@t1@t2...@tn"` at character level. -/
def tagsData : List (List Char) → List Char
  | [] => []
  | x :: xs => ('@' :: x) ++ tagsData xs

theorem tagsData_at_head : ∀ (ts : List (List Char)), ∃ r, tagsData ts ++ ['@'] = '@' :: r := by
  intro ts
  cases ts with
  | nil => exact ⟨[], rfl⟩
  | cons x xs => exact ⟨x ++ (tagsData xs ++ ['@']), by simp [tagsData]⟩

/-- Occurrence of `"@t@"` in `"@t1@...@tn@"` is exactly membership of `t`
among the tags, for `'@'`-free tags. -/
theorem tag_occurrence_iff_mem : ∀ (ts : List (List Char)) (t : List Char),
    (∀ x ∈ ts, '@' ∉ x) → '@' ∉ t →
    ((∃ u v, tagsData ts ++ ['@'] = u ++ ('@' :: (t ++ ['@'])) ++ v) ↔ t ∈ ts) := by
  intro ts
  induction ts with
  | nil =>
    intro t _ _
    simp only [tagsData, List.nil_append, List.not_mem_nil, iff_false]
    rintro ⟨u, v, heq⟩
    have hlen := congrArg List.length heq
    simp [List.length_append] at hlen
    omega
  | cons x rest ih =>
    intro t hts ht
    have hxfree : '@' ∉ x := hts x (List.mem_cons_self _ _)
    have hrest : ∀ y ∈ rest, '@' ∉ y := fun y hy => hts y (List.mem_cons_of_mem _ hy)
    constructor
    · rintro ⟨u, v, heq⟩
      have hs : tagsData (x :: rest) ++ ['@'] = '@' :: (x ++ (tagsData rest ++ ['@'])) := by
        simp [tagsData]
      rw [hs] at heq
      cases u with
      | nil =>
        rw [List.nil_append, List.cons_append, List.append_assoc] at heq
        injection heq with _ h2
        obtain ⟨r, hr⟩ := tagsData_at_head rest
        have hxt : x = t :=
          atfree_align x t (tagsData rest ++ ['@']) (['@'] ++ v) h2 hxfree ht
            ⟨r, hr⟩ ⟨v, rfl⟩
        rw [hxt]
        exact List.mem_cons_self _ _
      | cons e u2 =>
        rw [List.cons_append] at heq
        injection heq with h1 h2
        obtain ⟨u3, hu3, hR⟩ := atfree_skip x u2 (tagsData rest ++ ['@'])
          (t ++ ['@'] ++ v) (by rw [h2]; simp) hxfree
        have : ∃ u v2, tagsData rest ++ ['@'] = u ++ ('@' :: (t ++ ['@'])) ++ v2 := by
          refine ⟨u3, v, ?_⟩
          rw [hR]
          simp
        exact List.mem_cons_of_mem _ ((ih t hrest ht).mp this)
    · intro hmem
      rcases List.mem_cons.mp hmem with rfl | hmem2
      · obtain ⟨r, hr⟩ := tagsData_at_head rest
        refine ⟨[], r, ?_⟩
        have hs : tagsData (t :: rest) ++ ['@'] = '@' :: (t ++ (tagsData rest ++ ['@'])) := by
          simp [tagsData]
        rw [hs, hr]
        simp
      · obtain ⟨u0, v0, h0⟩ := (ih t hrest ht).mpr hmem2
        refine ⟨'@' :: (x ++ u0), v0, ?_⟩
        have hs : tagsData (x :: rest) ++ ['@'] = '@' :: (x ++ (tagsData rest ++ ['@'])) := by
          simp [tagsData]
        rw [hs, h0]
        simp

theorem attrsString_foldl_data : ∀ (ts : List String) (acc : String),
    (List.foldl (fun s t => s ++ "@" ++ t) acc ts).data =
      acc.data ++ tagsData (ts.map String.data) := by
  intro ts
  induction ts with
  | nil => intro acc; simp [tagsData]
  | cons x xs ih =>
    intro acc
    rw [List.foldl_cons, ih]
    simp [tagsData, String.data_append, List.append_assoc]

theorem attrsString_data (ts : List String) :
    (attrsString ts).data = tagsData (ts.map String.data) := by
  have := attrsString_foldl_data ts ""
  simpa [attrsString] using this

theorem containsS_key_iff (ts : List String) (t : String)
    (hts : ∀ x ∈ ts, '@' ∉ x.data) (ht : '@' ∉ t.data) :
    containsS (attrsString ts ++ "@") ("@" ++ t ++ "@") = true ↔ t ∈ ts := by
  rw [containsS]
  have hsub : ("@" ++ t ++ "@").data = '@' :: (t.data ++ ['@']) := by
    simp [String.data_append]
  have hstr : (attrsString ts ++ "@").data = tagsData (ts.map String.data) ++ ['@'] := by
    simp [String.data_append, attrsString_data]
  rw [hsub, hstr, containsL_iff]
  rw [tag_occurrence_iff_mem (ts.map String.data) t.data
      (fun x hx => by obtain ⟨y, hy, rfl⟩ := List.mem_map.mp hx; exact hts y hy) ht]
  constructor
  · intro hm
    obtain ⟨x, hx, hxd⟩ := List.mem_map.mp hm
    have hxt : x = t := by
      rw [← string_mk_data x, ← string_mk_data t, hxd]
    exact hxt ▸ hx
  · intro hm
    exact List.mem_map.mpr ⟨t, hm, rfl⟩

theorem bool_eq_decide {b : Bool} {P : Prop} [Decidable P] (h : b = true ↔ P) :
    b = decide P := by
  by_cases hp : P
  · rw [h.mpr hp, decide_eq_true hp]
  · have hb : b = false := by
      cases hbb : b
      · rfl
      · exact absurd (h.mp hbb) hp
    rw [hb, decide_eq_false hp]

theorem at_append_ne (t : String) (h : t ≠ "") : ("@" ++ t : String) ≠ "@" := by
  intro hbad
  have h2 := congrArg String.data hbad
  simp [String.data_append] at h2
  exact h (by rw [← string_mk_data t, h2])

theorem filter_map_comm {α β : Type} (f : α → β) (p : β → Bool) :
    ∀ l : List α, (l.map f).filter p = (l.filter (fun x => p (f x))).map f := by
  intro l
  induction l with
  | nil => rfl
  | cons a rest ih =>
    rw [List.map_cons, List.filter_cons, List.filter_cons]
    cases hp : p (f a) with
    | true => simp [ih]
    | false => simp [ih]

theorem includeFiltered_ARU (aw : String) : ∀ (m : List (String × List Domain)) (acc : ListInfo),
    (includeFiltered aw acc m).AttributeRuleUniqueList =
      acc.AttributeRuleUniqueList ++
        List.join ((m.filter (fun kv => containsS (kv.1 ++ "@") (aw ++ "@"))).map Prod.snd) := by
  intro m
  induction m with
  | nil => intro acc; simp [includeFiltered]
  | cons kv rest ih =>
    intro acc
    rw [includeFiltered, List.filter_cons]
    cases hc : containsS (kv.1 ++ "@") (aw ++ "@") with
    | true =>
      simp only [if_true]
      rw [ih]
      simp [List.append_assoc]
    | false =>
      simp only [Bool.false_eq_true, if_false]
      rw [ih]

theorem foldl_includeOne_ARU (inc : ListInfo) : ∀ (attrs : List String) (acc : ListInfo),
    (∀ aw ∈ attrs, aw ≠ "@") →
    (attrs.foldl (fun a aw => includeOne a inc aw) acc).AttributeRuleUniqueList =
      acc.AttributeRuleUniqueList ++
        List.join (attrs.map fun aw =>
          List.join ((inc.AttributeRuleListMap.filter
            (fun kv => containsS (kv.1 ++ "@") (aw ++ "@"))).map Prod.snd)) := by
  intro attrs
  induction attrs with
  | nil => intro acc _; simp
  | cons aw rest ih =>
    intro acc hne
    rw [List.foldl_cons, ih _ (fun a ha => hne a (List.mem_cons_of_mem _ ha)),
        includeOne, if_neg (hne aw (List.mem_cons_self _ _)), includeFiltered_ARU]
    simp [List.append_assoc]

/-- C2 (amended): an inclusion directive `include:X @t1 ... @tn` is processed
one filter tag at a time: for each `ti` it pulls in exactly those
tagged-rule groups of the target whose tag set contains `ti` (for `'@'`-free
tags; the records, hence their tag sets, are copied unchanged), a group
matching several filter tags being pulled once per matching tag.  For a
one-tag filter this coincides with the claimed superset rule; for several
tags it is a union, not a superset test. -/
theorem filtered_include_union_semantics (lm : ListInfoMap) (l inc : ListInfo) (X : String)
    (tags : List String) (groups : List (List String × List Domain))
    (hInc : l.HasInclusion = true)
    (hMap : l.InclusionAttributeMap = [(X, tags.map (fun t => "@" ++ t))])
    (hX : lookupA lm X = some inc)
    (hARLM : inc.AttributeRuleListMap = groups.map (fun g => (attrsString g.1, g.2)))
    (htags : ∀ t ∈ tags, t ≠ "" ∧ '@' ∉ t.data)
    (hgroups : ∀ g ∈ groups, ∀ s ∈ g.1, '@' ∉ s.data) :
    ∃ l', flattenIncludes lm l = some l'
      ∧ l'.AttributeRuleUniqueList =
          l.AttributeRuleUniqueList ++
            List.join (tags.map fun t =>
              List.join ((groups.filter (fun g => decide (t ∈ g.1))).map (fun g => g.2))) := by
  rw [flattenIncludes, if_pos hInc, hMap]
  simp only [flattenEntries, flattenEntry, hX]
  refine ⟨_, rfl, ?_⟩
  rw [foldl_includeOne_ARU inc (tags.map fun t => "@" ++ t) l ?hne]
  case hne =>
    intro aw haw
    obtain ⟨t, ht, rfl⟩ := List.mem_map.mp haw
    exact at_append_ne t (htags t ht).1
  rw [List.map_map]
  congr 1
  congr 1
  refine List.map_congr_left ?_
  intro t ht
  show List.join ((inc.AttributeRuleListMap.filter
      (fun kv => containsS (kv.1 ++ "@") (("@" ++ t) ++ "@"))).map Prod.snd) = _
  rw [hARLM, filter_map_comm]
  rw [List.map_map]
  have hfc : (groups.filter
        (fun g => containsS (attrsString g.1 ++ "@") (("@" ++ t) ++ "@"))) =
      groups.filter (fun g => decide (t ∈ g.1)) := by
    refine List.filter_congr ?_
    intro g hg
    exact bool_eq_decide (containsS_key_iff g.1 t (hgroups g hg) (htags t ht).2)
  rw [hfc]
  rfl

/-- Target file for the C2 instances: one group tagged `{cn}`. -/
def cnTaggedTarget : ListInfo :=
  { NewListInfo "X" with
    AttributeRuleUniqueList := [⟨DomainType.RootDomain, "x.com", ["cn"]⟩]
    AttributeRuleListMap := [("@cn", [⟨DomainType.RootDomain, "x.com", ["cn"]⟩])] }

/-- C2 counterexample: the directive `include:x @cn @ads` (a two-tag filter)
pulls in the target's `{cn}`-tagged rule although that rule's tag set lacks
the filter tag `ads` — refuting the superset semantics for multi-tag
filters. -/
theorem multi_tag_filter_counterexample :
    (parseInclusion (NewListInfo "P") "include:x @cn @ads").InclusionAttributeMap
        = [("X", ["@cn", "@ads"])]
    ∧ (parseInclusion (NewListInfo "P") "include:x @cn @ads").HasInclusion = true
    ∧ ∃ l', flattenIncludes [("X", cnTaggedTarget)]
          (parseInclusion (NewListInfo "P") "include:x @cn @ads") = some l'
        ∧ (⟨DomainType.RootDomain, "x.com", ["cn"]⟩ : Domain) ∈ l'.AttributeRuleUniqueList
        ∧ "ads" ∉ (⟨DomainType.RootDomain, "x.com", ["cn"]⟩ : Domain).Attribute := by
  refine ⟨by decide, by decide, ⟨_, rfl, by decide, by decide⟩⟩

/-- Witness for `filtered_include_union_semantics`. -/
theorem filtered_include_union_semantics_witness :
    ∃ l', flattenIncludes [("X", cnTaggedTarget)]
        { NewListInfo "P" with
          HasInclusion := true
          InclusionAttributeMap := [("X", ["cn"].map (fun t => "@" ++ t))] } = some l'
      ∧ l'.AttributeRuleUniqueList =
          ({ NewListInfo "P" with
             HasInclusion := true
             InclusionAttributeMap :=
               [("X", ["cn"].map (fun t => "@" ++ t))] } : ListInfo).AttributeRuleUniqueList
            ++ List.join ((["cn"] : List String).map fun t =>
                List.join ((([(["cn"], [⟨DomainType.RootDomain, "x.com", ["cn"]⟩])] :
                      List (List String × List Domain)).filter
                    (fun g => decide (t ∈ g.1))).map (fun g => g.2))) :=
  filtered_include_union_semantics [("X", cnTaggedTarget)]
    { NewListInfo "P" with
      HasInclusion := true
      InclusionAttributeMap := [("X", ["cn"].map (fun t => "@" ++ t))] }
    cnTaggedTarget "X" ["cn"] [(["cn"], [⟨DomainType.RootDomain, "x.com", ["cn"]⟩])]
    rfl rfl rfl rfl (by decide) (by decide)

/-! ## C3: the inclusion-resolution state machine (modelled from the spec) -/

/-- The resolver's failure modes (§4.3/§7 of the specification). -/
inductive ResolveError
  | cyclic (chain : List String)
  | unresolvedTarget (f : String)
  | fuelOut
deriving DecidableEq

/-- Modelled from the spec: the resolution driver
(`ListInfoMap.FlattenAndGenUniqueDomainList`) is not among the sources
provided; §4.3 specifies it as a per-file `Unresolved → Resolving →
Resolved` state machine with recursive resolution: reaching a file that is
already `Resolving` is a cyclic-inclusion error, a target absent from the
registry is an unresolvable-target error, and a file is `Resolved` only
after all its inclusion targets are.  The model works on the inclusion
graph (`registry : file ↦ its directive targets`): `chain` is the stack of
files currently `Resolving`, `resolved` the `Resolved` files, and the list
argument the files still to process at the current level.  Fuel makes the
recursion structural; the lemmas below show a closed registry never
exhausts a sufficient budget. -/
def resolveMany (reg : List (String × List String)) :
    Nat → List String → List String → List String → Except ResolveError (List String)
  | 0, _, _, _ => Except.error ResolveError.fuelOut
  | Nat.succ _, _, resolved, [] => Except.ok resolved
  | Nat.succ fuel, chain, resolved, f :: fs =>
    if f ∈ resolved then resolveMany reg fuel chain resolved fs
    else if f ∈ chain then Except.error (ResolveError.cyclic (chain ++ [f]))
    else
      match lookupA reg f with
      | none => Except.error (ResolveError.unresolvedTarget f)
      | some targets =>
        match resolveMany reg fuel (chain ++ [f]) resolved targets with
        | Except.error e => Except.error e
        | Except.ok resolved2 => resolveMany reg fuel chain (resolved2 ++ [f]) fs

/-- Resolution cost of the not-yet-`Resolving` part of the registry. -/
def remCost (reg : List (String × List String)) (chain : List String) : Nat :=
  ((reg.filter (fun p => decide (p.1 ∉ chain))).map (fun p => p.2.length + 1)).sum

/-- Modelled from the spec: run the resolver over a processing order of the
registry's files, with a fuel budget sufficient for a closed registry. -/
def resolveRegistry (reg : List (String × List String)) (order : List String) :
    Except ResolveError (List String) :=
  resolveMany reg (order.length + remCost reg [] + 1) [] [] order

/-- One inclusion edge of the registry graph. -/
def Edge (reg : List (String × List String)) (f g : String) : Prop :=
  ∃ ts, lookupA reg f = some ts ∧ g ∈ ts

/-- Reachability along inclusion edges. -/
inductive Reach (reg : List (String × List String)) : String → String → Prop
  | refl (f : String) : Reach reg f f
  | step {f g h : String} : Edge reg f g → Reach reg g h → Reach reg f h

/-- A file that transitively includes itself. -/
def OnCycle (reg : List (String × List String)) (f : String) : Prop :=
  ∃ g, Edge reg f g ∧ Reach reg g f

/-- Every inclusion target is itself present in the registry. -/
def ClosedReg (reg : List (String × List String)) : Prop :=
  ∀ p ∈ reg, ∀ t ∈ p.2, t ∈ reg.map Prod.fst

theorem lookupA_mem {α : Type} : ∀ (reg : List (String × α)) (f : String) (v : α),
    lookupA reg f = some v → (f, v) ∈ reg := by
  intro reg
  induction reg with
  | nil => intro f v h; cases h
  | cons p rest ih =>
    intro f v h
    obtain ⟨k, v0⟩ := p
    rw [lookupA] at h
    by_cases hk : k = f
    · rw [if_pos hk] at h
      cases h
      rw [hk]
      exact List.mem_cons_self _ _
    · rw [if_neg hk] at h
      exact List.mem_cons_of_mem _ (ih f v h)

theorem mem_keys_lookup : ∀ (reg : List (String × List String)) (f : String),
    f ∈ reg.map Prod.fst → ∃ ts, lookupA reg f = some ts := by
  intro reg
  induction reg with
  | nil => intro f h; cases h
  | cons p rest ih =>
    intro f h
    obtain ⟨k, v0⟩ := p
    rw [lookupA]
    by_cases hk : k = f
    · exact ⟨v0, by rw [if_pos hk]⟩
    · rw [if_neg hk]
      rcases List.mem_cons.mp h with he | h2
      · exact absurd he.symm hk
      · exact ih f h2

theorem closed_lookup {reg : List (String × List String)} (hcl : ClosedReg reg)
    {f : String} {ts : List String} (h : lookupA reg f = some ts) :
    ∀ t ∈ ts, t ∈ reg.map Prod.fst :=
  fun t ht => hcl (f, ts) (lookupA_mem reg f ts h) t ht

theorem edge_targets {reg : List (String × List String)} {f g : String}
    {ts : List String} (he : Edge reg f g) (h : lookupA reg f = some ts) : g ∈ ts := by
  obtain ⟨ts2, h2, hg⟩ := he
  rw [h] at h2
  cases h2
  exact hg

theorem reach_mem_closed {reg : List (String × List String)} {resolved : List String}
    (hI2 : ∀ x ∈ resolved, ∀ g, Edge reg x g → g ∈ resolved) :
    ∀ {x c : String}, Reach reg x c → x ∈ resolved → c ∈ resolved := by
  intro x c hr
  induction hr with
  | refl => exact id
  | step he _ ih => intro hx; exact ih (hI2 _ hx _ he)

theorem remCost_chain_cons (reg : List (String × List String))
    (hnd : (reg.map Prod.fst).Nodup) (chain : List String) (f : String)
    (ts : List String) (hlk : lookupA reg f = some ts) (hfc : f ∉ chain) :
    remCost reg chain = ts.length + 1 + remCost reg (chain ++ [f]) := by
  induction reg with
  | nil => cases hlk
  | cons p rest ih =>
    obtain ⟨k, vs⟩ := p
    rw [List.map_cons, List.nodup_cons] at hnd
    rw [lookupA] at hlk
    by_cases hk : k = f
    · rw [if_pos hk] at hlk
      cases hlk
      have hnotin : (decide (k ∉ chain)) = true := by
        rw [hk]
        simpa using hfc
      have hin2 : (decide (k ∉ chain ++ [f])) = false := by
        rw [hk]
        simp
      have hrest : ∀ q ∈ rest, q.1 ≠ f := by
        intro q hq heq
        apply hnd.1
        rw [hk, ← heq]
        exact List.mem_map.mpr ⟨q, hq, rfl⟩
      have hsame : remCost rest (chain ++ [f]) = remCost rest chain := by
        rw [remCost, remCost]
        congr 1
        congr 1
        refine List.filter_congr ?_
        intro q hq
        have hqf : q.1 ≠ f := hrest q hq
        simp only [decide_eq_decide]
        constructor
        · intro hno hmem
          exact hno (List.mem_append_left _ hmem)
        · intro hno hmem
          rcases List.mem_append.mp hmem with hm | hm
          · exact hno hm
          · rcases List.mem_cons.mp hm with he | he
            · exact hqf he
            · cases he
      rw [remCost, remCost, List.filter_cons, List.filter_cons, hnotin, hin2]
      simp only [if_true, Bool.false_eq_true, if_false, List.map_cons, List.sum_cons]
      rw [remCost, remCost] at hsame
      omega
    · rw [if_neg hk] at hlk
      have hsameK : (decide (k ∉ chain ++ [f])) = (decide (k ∉ chain)) := by
        simp only [decide_eq_decide]
        constructor
        · intro hno hmem
          exact hno (List.mem_append_left _ hmem)
        · intro hno hmem
          rcases List.mem_append.mp hmem with hm | hm
          · exact hno hm
          · rcases List.mem_cons.mp hm with he | he
            · exact hk he
            · cases he
      have := ih hnd.2 hlk
      rw [remCost, remCost, List.filter_cons, List.filter_cons, hsameK]
      cases hkc : (decide (k ∉ chain)) with
      | true =>
        simp only [if_true, List.map_cons, List.sum_cons]
        rw [remCost, remCost] at this
        omega
      | false =>
        simp only [Bool.false_eq_true, if_false]
        exact this

theorem resolveMany_no_fuelOut (reg : List (String × List String))
    (hnd : (reg.map Prod.fst).Nodup) (hcl : ClosedReg reg) :
    ∀ fuel chain resolved l,
      (∀ x ∈ l, x ∈ reg.map Prod.fst) →
      l.length + remCost reg chain + 1 ≤ fuel →
      resolveMany reg fuel chain resolved l ≠ Except.error ResolveError.fuelOut := by
  intro fuel
  induction fuel with
  | zero =>
    intro chain resolved l _ hb
    omega
  | succ fuel2 IH =>
    intro chain resolved l hkeys hb
    cases l with
    | nil =>
      intro hcon
      rw [resolveMany] at hcon
      cases hcon
    | cons f fs =>
      intro hcon
      rw [resolveMany] at hcon
      rw [List.length_cons] at hb
      by_cases hfr : f ∈ resolved
      · rw [if_pos hfr] at hcon
        exact IH chain resolved fs (fun x hx => hkeys x (List.mem_cons_of_mem _ hx))
          (by omega) hcon
      · rw [if_neg hfr] at hcon
        by_cases hfc : f ∈ chain
        · rw [if_pos hfc] at hcon
          cases hcon
        · rw [if_neg hfc] at hcon
          obtain ⟨ts, hts⟩ := mem_keys_lookup reg f (hkeys f (List.mem_cons_self _ _))
          rw [hts] at hcon
          dsimp only at hcon
          have hrc := remCost_chain_cons reg hnd chain f ts hts hfc
          cases hnest : resolveMany reg fuel2 (chain ++ [f]) resolved ts with
          | error e =>
            rw [hnest] at hcon
            dsimp only at hcon
            injection hcon with he
            exact IH (chain ++ [f]) resolved ts (closed_lookup hcl hts)
              (by omega) (he ▸ hnest)
          | ok resolved2 =>
            rw [hnest] at hcon
            dsimp only at hcon
            exact IH chain (resolved2 ++ [f]) fs
              (fun x hx => hkeys x (List.mem_cons_of_mem _ hx)) (by omega) hcon

theorem resolveMany_no_missing (reg : List (String × List String)) (hcl : ClosedReg reg) :
    ∀ fuel chain resolved l,
      (∀ x ∈ l, x ∈ reg.map Prod.fst) →
      ∀ t, resolveMany reg fuel chain resolved l ≠
        Except.error (ResolveError.unresolvedTarget t) := by
  intro fuel
  induction fuel with
  | zero =>
    intro chain resolved l _ t hcon
    rw [resolveMany] at hcon
    injection hcon with he
    cases he
  | succ fuel2 IH =>
    intro chain resolved l hkeys t hcon
    cases l with
    | nil =>
      rw [resolveMany] at hcon
      cases hcon
    | cons f fs =>
      rw [resolveMany] at hcon
      by_cases hfr : f ∈ resolved
      · rw [if_pos hfr] at hcon
        exact IH chain resolved fs (fun x hx => hkeys x (List.mem_cons_of_mem _ hx)) t hcon
      · rw [if_neg hfr] at hcon
        by_cases hfc : f ∈ chain
        · rw [if_pos hfc] at hcon
          injection hcon with he
          cases he
        · rw [if_neg hfc] at hcon
          obtain ⟨ts, hts⟩ := mem_keys_lookup reg f (hkeys f (List.mem_cons_self _ _))
          rw [hts] at hcon
          dsimp only at hcon
          cases hnest : resolveMany reg fuel2 (chain ++ [f]) resolved ts with
          | error e =>
            rw [hnest] at hcon
            dsimp only at hcon
            injection hcon with he
            exact IH (chain ++ [f]) resolved ts (closed_lookup hcl hts) t (he ▸ hnest)
          | ok resolved2 =>
            rw [hnest] at hcon
            dsimp only at hcon
            exact IH chain (resolved2 ++ [f]) fs
              (fun x hx => hkeys x (List.mem_cons_of_mem _ hx)) t hcon

/-- Joint soundness of the resolver: a successful run preserves the
state-machine invariants (no resolved file lies on a cycle, the resolved set
is closed under inclusion edges, no `Resolving` file is `Resolved`, and
everything requested ends up resolved), and a run can never return
successfully when some requested file lies on a cycle or reaches a file
currently `Resolving`. -/
theorem resolveMany_sound (reg : List (String × List String)) :
    ∀ fuel chain resolved l,
      (∀ x ∈ resolved, ¬ OnCycle reg x) →
      (∀ x ∈ resolved, ∀ g, Edge reg x g → g ∈ resolved) →
      (∀ c ∈ chain, c ∉ resolved) →
      ((∀ r, resolveMany reg fuel chain resolved l = Except.ok r →
          (∀ x ∈ r, ¬ OnCycle reg x)
          ∧ (∀ x ∈ r, ∀ g, Edge reg x g → g ∈ r)
          ∧ (∀ c ∈ chain, c ∉ r)
          ∧ (∀ x ∈ resolved, x ∈ r)
          ∧ (∀ x ∈ l, x ∈ r))
        ∧ (∀ x ∈ l, (OnCycle reg x ∨ ∃ c ∈ chain, Reach reg x c) →
            ∀ r, resolveMany reg fuel chain resolved l ≠ Except.ok r)) := by
  intro fuel
  induction fuel with
  | zero =>
    intro chain resolved l _ _ _
    constructor
    · intro r hr
      rw [resolveMany] at hr
      cases hr
    · intro x _ _ r hr
      rw [resolveMany] at hr
      cases hr
  | succ fuel2 IH =>
    intro chain resolved l hI1 hI2 hI3
    cases l with
    | nil =>
      constructor
      · intro r hr
        rw [resolveMany] at hr
        injection hr with he
        subst he
        exact ⟨hI1, hI2, hI3, fun x hx => hx, fun x hx => absurd hx (List.not_mem_nil x)⟩
      · intro x hx
        cases hx
    | cons f fs =>
      by_cases hfr : f ∈ resolved
      · have hstep : resolveMany reg (fuel2 + 1) chain resolved (f :: fs) =
            resolveMany reg fuel2 chain resolved fs := by
          rw [resolveMany, if_pos hfr]
        obtain ⟨IHA, IHB⟩ := IH chain resolved fs hI1 hI2 hI3
        constructor
        · intro r hr
          rw [hstep] at hr
          obtain ⟨L1, L2, L3, Lsub, Lall⟩ := IHA r hr
          refine ⟨L1, L2, L3, Lsub, ?_⟩
          intro x hx
          rcases List.mem_cons.mp hx with rfl | hx2
          · exact Lsub x hfr
          · exact Lall x hx2
        · intro x hx hbad r hr
          rw [hstep] at hr
          rcases List.mem_cons.mp hx with rfl | hx2
          · rcases hbad with hcyc | ⟨c, hc, hreach⟩
            · exact hI1 x hfr hcyc
            · exact hI3 c hc (reach_mem_closed hI2 hreach hfr)
          · exact IHB x hx2 hbad r hr
      · by_cases hfc : f ∈ chain
        · have hstep : resolveMany reg (fuel2 + 1) chain resolved (f :: fs) =
              Except.error (ResolveError.cyclic (chain ++ [f])) := by
            rw [resolveMany, if_neg hfr, if_pos hfc]
          constructor
          · intro r hr
            rw [hstep] at hr
            cases hr
          · intro x _ _ r hr
            rw [hstep] at hr
            cases hr
        · cases hlk : lookupA reg f with
          | none =>
            have hstep : resolveMany reg (fuel2 + 1) chain resolved (f :: fs) =
                Except.error (ResolveError.unresolvedTarget f) := by
              rw [resolveMany, if_neg hfr, if_neg hfc, hlk]
            constructor
            · intro r hr
              rw [hstep] at hr
              cases hr
            · intro x _ _ r hr
              rw [hstep] at hr
              cases hr
          | some targets =>
            cases hnest : resolveMany reg fuel2 (chain ++ [f]) resolved targets with
            | error e =>
              have hstep : resolveMany reg (fuel2 + 1) chain resolved (f :: fs) =
                  Except.error e := by
                rw [resolveMany, if_neg hfr, if_neg hfc, hlk]
                dsimp only
                rw [hnest]
              constructor
              · intro r hr
                rw [hstep] at hr
                cases hr
              · intro x _ _ r hr
                rw [hstep] at hr
                cases hr
            | ok resolved2 =>
              have hstep : resolveMany reg (fuel2 + 1) chain resolved (f :: fs) =
                  resolveMany reg fuel2 chain (resolved2 ++ [f]) fs := by
                rw [resolveMany, if_neg hfr, if_neg hfc, hlk]
                dsimp only
                rw [hnest]
              have hI3' : ∀ c ∈ chain ++ [f], c ∉ resolved := by
                intro c hc
                rcases List.mem_append.mp hc with hc1 | hc2
                · exact hI3 c hc1
                · rcases List.mem_cons.mp hc2 with rfl | hc3
                  · exact hfr
                  · cases hc3
              obtain ⟨NA, NB⟩ := IH (chain ++ [f]) resolved targets hI1 hI2 hI3'
              obtain ⟨J1, J2, J3, Jsub, Jall⟩ := NA resolved2 hnest
              have hfnc : ¬ OnCycle reg f := by
                rintro ⟨g, heg, hgr⟩
                have hg : g ∈ targets := edge_targets heg hlk
                exact NB g hg
                  (Or.inr ⟨f, List.mem_append_right _ (List.mem_cons_self _ _), hgr⟩)
                  resolved2 hnest
              have K1 : ∀ x ∈ resolved2 ++ [f], ¬ OnCycle reg x := by
                intro x hx
                rcases List.mem_append.mp hx with hx1 | hx2
                · exact J1 x hx1
                · rcases List.mem_cons.mp hx2 with rfl | hx3
                  · exact hfnc
                  · cases hx3
              have K2 : ∀ x ∈ resolved2 ++ [f], ∀ g, Edge reg x g → g ∈ resolved2 ++ [f] := by
                intro x hx g hxg
                rcases List.mem_append.mp hx with hx1 | hx2
                · exact List.mem_append_left _ (J2 x hx1 g hxg)
                · rcases List.mem_cons.mp hx2 with rfl | hx3
                  · exact List.mem_append_left _ (Jall g (edge_targets hxg hlk))
                  · cases hx3
              have K3 : ∀ c ∈ chain, c ∉ resolved2 ++ [f] := by
                intro c hc hcr
                rcases List.mem_append.mp hcr with hcr1 | hcr2
                · exact J3 c (List.mem_append_left _ hc) hcr1
                · rcases List.mem_cons.mp hcr2 with rfl | hcr3
                  · exact hfc hc
                  · cases hcr3
              obtain ⟨MA, MB⟩ := IH chain (resolved2 ++ [f]) fs K1 K2 K3
              constructor
              · intro r hr
                rw [hstep] at hr
                obtain ⟨L1, L2, L3, Lsub, Lall⟩ := MA r hr
                refine ⟨L1, L2, L3, ?_, ?_⟩
                · intro x hx
                  exact Lsub x (List.mem_append_left _ (Jsub x hx))
                · intro x hx
                  rcases List.mem_cons.mp hx with rfl | hx2
                  · exact Lsub x (List.mem_append_right _ (List.mem_cons_self _ _))
                  · exact Lall x hx2
              · intro x hx hbad r hr
                rw [hstep] at hr
                rcases List.mem_cons.mp hx with rfl | hx2
                · rcases hbad with hcyc | ⟨c, hc, hreach⟩
                  · exact hfnc hcyc
                  · cases hreach with
                    | refl => exact hfc hc
                    | step heg hgr =>
                      have hg := edge_targets heg hlk
                      exact NB _ hg (Or.inr ⟨c, List.mem_append_left _ hc, hgr⟩)
                        resolved2 hnest
                · exact MB x hx2 hbad r hr

/-- C3: in a closed registry (every inclusion target present, keys unique)
in which file `f` transitively includes itself, resolution fails with a
cyclic-inclusion error carrying the discovered chain, whatever the order in
which the registry's files are processed; and no run of the resolver, with
any fuel, order, or intermediate outcome, ever returns a resolved set — a
set of files whose flattened collections were produced — containing `f`. -/
theorem cyclic_inclusion_always_fails (reg : List (String × List String)) (f : String)
    (hnd : (reg.map Prod.fst).Nodup) (hcl : ClosedReg reg) (hcyc : OnCycle reg f) :
    (∀ order, f ∈ order → (∀ x ∈ order, x ∈ reg.map Prod.fst) →
        ∃ c, resolveRegistry reg order = Except.error (ResolveError.cyclic c))
    ∧ (∀ fuel l r, resolveMany reg fuel [] [] l = Except.ok r → f ∉ r) := by
  constructor
  · intro order hf hkeys
    have hB := (resolveMany_sound reg (order.length + remCost reg [] + 1) [] [] order
        (fun x hx => absurd hx (List.not_mem_nil x))
        (fun x hx => absurd hx (List.not_mem_nil x))
        (fun c hc => absurd hc (List.not_mem_nil c))).2 f hf (Or.inl hcyc)
    rw [resolveRegistry]
    cases hres : resolveMany reg (order.length + remCost reg [] + 1) [] [] order with
    | ok r => exact absurd hres (hB r)
    | error e =>
      cases e with
      | cyclic c => exact ⟨c, rfl⟩
      | unresolvedTarget t =>
        exact absurd hres (resolveMany_no_missing reg hcl _ [] [] order hkeys t)
      | fuelOut =>
        exact absurd hres
          (resolveMany_no_fuelOut reg hnd hcl _ [] [] order hkeys (by omega))
  · intro fuel l r hr hfr
    have hinv := ((resolveMany_sound reg fuel [] [] l
        (fun x hx => absurd hx (List.not_mem_nil x))
        (fun x hx => absurd hx (List.not_mem_nil x))
        (fun c hc => absurd hc (List.not_mem_nil c))).1 r hr).1
    exact hinv f hfr hcyc

/-- The two-file cyclic registry `A ↦ include B`, `B ↦ include A`. -/
def cycleReg : List (String × List String) := [("A", ["B"]), ("B", ["A"])]

/-- Witness for `cyclic_inclusion_always_fails`. -/
theorem cyclic_inclusion_always_fails_witness :
    (∀ order, "A" ∈ order → (∀ x ∈ order, x ∈ cycleReg.map Prod.fst) →
        ∃ c, resolveRegistry cycleReg order = Except.error (ResolveError.cyclic c))
    ∧ (∀ fuel l r, resolveMany cycleReg fuel [] [] l = Except.ok r → "A" ∉ r) :=
  cyclic_inclusion_always_fails cycleReg "A" (by decide) (by unfold ClosedReg; decide)
    ⟨"B", ⟨["B"], rfl, by decide⟩, Reach.step ⟨["A"], rfl, by decide⟩ (Reach.refl "A")⟩

example : resolveRegistry cycleReg ["A", "B"] =
    Except.error (ResolveError.cyclic ["A", "B", "A"]) := rfl

example : resolveRegistry cycleReg ["B", "A"] =
    Except.error (ResolveError.cyclic ["B", "A", "B"]) := rfl

end RuleSet
